import Mathlib

/-!
# Verification of the delay-injection and timing-accounting core

Shallow embedding of the delay-injection subsystem of the
`python-newrelic-ai-monitoring-workshop` repository
(`2-python-bedrock-newrelic/late_levitwo.py` and
`2-python-bedrock-newrelic/leveltwo.py`).

Wall-clock time is modelled as an explicit rational clock threaded through
the computation.  Each operation of the Python source that consumes time
advances the clock by an amount supplied by an *environment*: the
environment records, for one concrete execution, how long each real step
took (loop-iteration costs, the duration of the external model call, the
overhead of the glue code between two `time.time()` reads) and where, if
anywhere, an exception was raised.  Quantifying over all environments
quantifies over all schedules and failure patterns of the real program.

Python's `int(x)` (truncation toward zero) is modelled by `pyInt`,
`time.time()` reads by reading the clock, the filesystem by the list of
temporary-file identifiers currently existing on disk, and exceptions by
`Except`-valued results.
-/

/-- Python `int(x)` applied to a float: truncation toward zero. -/
def pyInt (q : ℚ) : ℤ := if 0 ≤ q then ⌊q⌋ else -⌊-q⌋

/-- Truncated milliseconds of a nonnegative duration given in seconds. -/
def msOf (q : ℚ) : ℤ := pyInt (q * 1000)

namespace Workshop

/-- The six delay strategies of `DELAY_FUNCTIONS` in `late_levitwo.py`. -/
inductive DelayType
  | simple_sleep
  | cpu_intensive
  | memory_intensive
  | io_simulation
  | network_simulation
  | mixed
deriving DecidableEq, Repr

/-- The observable world threaded through a delay run: the wall clock, the
temporary files created by this run that currently exist on disk (identified
by a per-run counter standing for the unique `uuid4` names), and an
instrumentation log of every delay-strategy function entered together with
its target duration. -/
structure World where
  clock : ℚ
  disk : List ℕ
  nextFile : ℕ
  calls : List (DelayType × ℚ)
deriving DecidableEq

/-- Exception injection points of one `io_simulation_delay` loop iteration.
`atWrite` models an exception raised while writing the freshly created file
(after `open` has created it but before it is appended to `temp_files`);
`atRead` and `atSleep` model exceptions raised after the file is tracked. -/
inductive IoFail
  | atWrite
  | atRead
  | atSleep
deriving DecidableEq, Repr

/-- Environment of one `io_simulation_delay` loop iteration: the wall time
the iteration consumed and an optional exception point. -/
structure IoIter where
  dt : ℚ
  fail : Option IoFail
deriving DecidableEq

/-- Exception injection points of one `memory_intensive_delay` iteration.
`atAlloc` models `np.random.rand` raising before the block is appended;
`atSleep` models an exception after the append and window trim. -/
inductive MemFail
  | atAlloc
  | atSleep
deriving DecidableEq, Repr

/-- Environment of one `memory_intensive_delay` loop iteration. -/
structure MemIter where
  dt : ℚ
  fail : Option MemFail
deriving DecidableEq

/-- Internal errors a delay strategy can raise to its caller. -/
inductive DelayErr
  | io (e : IoFail)
  | mem (e : MemFail)
deriving DecidableEq, Repr

/-- Environment of one delay-strategy run: per-iteration wall-time costs
(and failure injections) for each looping strategy. -/
structure StratEnv where
  cpuIters : List ℚ
  memIters : List MemIter
  ioIters : List IoIter
  netIters : List ℚ
deriving DecidableEq

/-- All wall-time costs in the environment are nonnegative. -/
def StratEnv.Nonneg (env : StratEnv) : Prop :=
  (∀ d ∈ env.cpuIters, 0 ≤ d) ∧ (∀ it ∈ env.memIters, 0 ≤ it.dt) ∧
  (∀ it ∈ env.ioIters, 0 ≤ it.dt) ∧ (∀ d ∈ env.netIters, 0 ≤ d)

instance (env : StratEnv) : Decidable env.Nonneg := by
  unfold StratEnv.Nonneg; infer_instance

/-- No iteration of the environment injects an exception. -/
def StratEnv.NoFail (env : StratEnv) : Prop :=
  (∀ it ∈ env.memIters, it.fail = none) ∧ (∀ it ∈ env.ioIters, it.fail = none)

instance (env : StratEnv) : Decidable env.NoFail := by
  unfold StratEnv.NoFail; infer_instance

/-! ## `simple_sleep_delay` (late_levitwo.py lines 83-85)

A single `time.sleep(duration)`: the clock advances by the target duration.
-/

def simple_sleep_delay (duration : ℚ) (w : World) : World :=
  { w with clock := w.clock + duration,
           calls := w.calls ++ [(DelayType.simple_sleep, duration)] }

/-! ## `cpu_intensive_delay` (lines 87-102)

A tight hashing loop `while time.time() < target_time`.  Hash computation
has no observable effect in the model except for consuming wall time, so an
iteration is just its wall-time cost. -/

def cpuLoop (target : ℚ) : List ℚ → World → World
  | [], w => w
  | dt :: rest, w =>
      if w.clock < target then cpuLoop target rest { w with clock := w.clock + dt }
      else w

def cpu_intensive_delay (duration : ℚ) (iters : List ℚ) (w : World) : World :=
  let w0 := { w with calls := w.calls ++ [(DelayType.cpu_intensive, duration)] }
  cpuLoop (w0.clock + duration) iters w0

/-! ## `memory_intensive_delay` (lines 104-123)

```python
memory_blocks = []
try:
    while time.time() < target_time:
        block = np.random.rand(100000).astype(np.float64)
        memory_blocks.append(block)
        if len(memory_blocks) > 10:
            memory_blocks.pop(0)
        time.sleep(0.1)
finally:
    memory_blocks.clear()
```

Blocks are identified by a per-run allocation counter.  A snapshot records
the world, the current `memory_blocks` list and the allocation counter;
the loop also returns the list of every snapshot it passed through, so that
"at any time during the run" is expressible. -/

structure MemSnap where
  w : World
  blocks : List ℕ
  nextBlock : ℕ
deriving DecidableEq

/-- One loop iteration of `memory_intensive_delay`.  Returns the snapshots
visited during the iteration and either the iteration's end state or the
state at the injected exception. -/
def memIterRun (it : MemIter) (s : MemSnap) :
    List MemSnap × Except (MemFail × MemSnap) MemSnap :=
  let s0 : MemSnap := ⟨{ s.w with clock := s.w.clock + it.dt }, s.blocks, s.nextBlock⟩
  if it.fail = some MemFail.atAlloc then ([s0], .error (MemFail.atAlloc, s0))
  else
    let s1 : MemSnap := ⟨s0.w, s0.blocks ++ [s0.nextBlock], s0.nextBlock + 1⟩
    let s2 : MemSnap := if 10 < s1.blocks.length then ⟨s1.w, s1.blocks.tail, s1.nextBlock⟩ else s1
    if it.fail = some MemFail.atSleep then ([s0, s1, s2], .error (MemFail.atSleep, s2))
    else ([s0, s1, s2], .ok s2)

def memLoop (target : ℚ) : List MemIter → MemSnap → List MemSnap × Except (MemFail × MemSnap) MemSnap
  | [], s => ([], .ok s)
  | it :: rest, s =>
      if s.w.clock < target then
        match memIterRun it s with
        | (snaps, .ok s') =>
            let r := memLoop target rest s'
            (snaps ++ r.1, r.2)
        | (snaps, .error e) => (snaps, .error e)
      else ([], .ok s)

/-- Result of a `memory_intensive_delay` run: the final world, the exception
that escaped (if any), and the contents of the local `memory_blocks` list
after the `finally: memory_blocks.clear()` clause has run. -/
structure MemResult where
  world : World
  raised : Option MemFail
  finalBlocks : List ℕ
deriving DecidableEq

/-- The state at the top of `memory_intensive_delay`: the function has been
entered (logged), `memory_blocks` is empty, no block allocated yet. -/
def memStart (duration : ℚ) (w : World) : MemSnap :=
  ⟨{ w with calls := w.calls ++ [(DelayType.memory_intensive, duration)] }, [], 0⟩

/-- Full run of `memory_intensive_delay`, also exposing every intermediate
snapshot of the loop.  The `finally` clause clears `memory_blocks` on the
normal and on the exception path alike; an escaping exception is still
re-raised after the `finally`. -/
def memory_intensive_delay_run (duration : ℚ) (iters : List MemIter) (w : World) :
    List MemSnap × MemResult :=
  match memLoop (w.clock + duration) iters (memStart duration w) with
  | (tr, .ok s) => (tr, ⟨s.w, none, []⟩)
  | (tr, .error (e, s)) => (tr, ⟨s.w, some e, []⟩)

/-- The function `memory_intensive_delay` as seen by a caller: the world and
the re-raised exception, if any. -/
def memory_intensive_delay (duration : ℚ) (iters : List MemIter) (w : World) :
    Except (DelayErr × World) World :=
  match memory_intensive_delay_run duration iters w with
  | (_, ⟨w', none, _⟩) => .ok w'
  | (_, ⟨w', some e, _⟩) => .error (DelayErr.mem e, w')

/-! ## `io_simulation_delay` (lines 125-161)

```python
temp_files = []
try:
    while time.time() < target_time:
        temp_file = f"/tmp/delay_sim_{uuid.uuid4().hex[:8]}.txt"
        with open(temp_file, 'w') as f: ...   # file created here
        temp_files.append(temp_file)
        with open(temp_file, 'r') as f: ...
        time.sleep(0.05)
        if len(temp_files) > 5:
            os.remove(temp_files.pop(0))
finally:
    for temp_file in temp_files:
        os.remove(temp_file)
```

`os.remove` is modelled as succeeding (removing the named file when it is
present); the `try/except: pass` wrappers around it only matter for
removal failures, which are outside the model.  Unique `uuid4` names are
modelled by the per-run counter `nextFile`. -/

structure IoSnap where
  w : World
  temp_files : List ℕ
deriving DecidableEq

/-- One loop iteration of `io_simulation_delay`: create and write a fresh
file, track it, read it back, pause, then delete the oldest tracked file if
more than five are tracked.  Returns the snapshots visited during the
iteration. -/
def ioIterRun (it : IoIter) (s : IoSnap) :
    List IoSnap × Except (IoFail × IoSnap) IoSnap :=
  let newId := s.w.nextFile
  let w1 : World :=
    { s.w with clock := s.w.clock + it.dt, disk := s.w.disk ++ [newId], nextFile := newId + 1 }
  let s1 : IoSnap := ⟨w1, s.temp_files⟩
  if it.fail = some IoFail.atWrite then ([s1], .error (IoFail.atWrite, s1))
  else
    let s2 : IoSnap := ⟨s1.w, s1.temp_files ++ [newId]⟩
    if it.fail = some IoFail.atRead then ([s1, s2], .error (IoFail.atRead, s2))
    else if it.fail = some IoFail.atSleep then ([s1, s2], .error (IoFail.atSleep, s2))
    else
      let s3 : IoSnap :=
        if 5 < s2.temp_files.length then
          ⟨{ s2.w with disk := s2.w.disk.erase s2.temp_files.headI }, s2.temp_files.tail⟩
        else s2
      ([s1, s2, s3], .ok s3)

def ioLoop (target : ℚ) : List IoIter → IoSnap → List IoSnap × Except (IoFail × IoSnap) IoSnap
  | [], s => ([], .ok s)
  | it :: rest, s =>
      if s.w.clock < target then
        match ioIterRun it s with
        | (snaps, .ok s') =>
            let r := ioLoop target rest s'
            (snaps ++ r.1, r.2)
        | (snaps, .error e) => (snaps, .error e)
      else ([], .ok s)

/-- The `finally` clause: remove every still-tracked temporary file. -/
def ioCleanup (s : IoSnap) : World :=
  { s.w with disk := s.temp_files.foldl (fun d f => d.erase f) s.w.disk }

/-- The state at the top of `io_simulation_delay`: the function has been
entered (logged) and `temp_files` is empty. -/
def ioStart (duration : ℚ) (w : World) : IoSnap :=
  ⟨{ w with calls := w.calls ++ [(DelayType.io_simulation, duration)] }, []⟩

/-- Full run of `io_simulation_delay`, exposing every intermediate snapshot
of the loop.  The cleanup runs on the normal and on the exception path;
an escaping exception is re-raised after it. -/
def io_simulation_delay_run (duration : ℚ) (iters : List IoIter) (w : World) :
    List IoSnap × Except (DelayErr × World) World :=
  match ioLoop (w.clock + duration) iters (ioStart duration w) with
  | (tr, .ok s) => (tr, .ok (ioCleanup s))
  | (tr, .error (e, s)) => (tr, .error (DelayErr.io e, ioCleanup s))

def io_simulation_delay (duration : ℚ) (iters : List IoIter) (w : World) :
    Except (DelayErr × World) World :=
  (io_simulation_delay_run duration iters w).2

/-! ## `network_simulation_delay` (lines 163-190)

The worker-pool batches have no observable effect in the model beyond
consuming wall time (`future.result` failures are swallowed by
`except: pass`, and `with ThreadPoolExecutor` tears the pool down on every
exit path), so an iteration is its wall-time cost. -/

def netLoop (target : ℚ) : List ℚ → World → World
  | [], w => w
  | dt :: rest, w =>
      if w.clock < target then netLoop target rest { w with clock := w.clock + dt }
      else w

def network_simulation_delay (duration : ℚ) (iters : List ℚ) (w : World) : World :=
  let w0 := { w with calls := w.calls ++ [(DelayType.network_simulation, duration)] }
  netLoop (w0.clock + duration) iters w0

/-! ## `mixed_delay` (lines 192-200)

```python
portion = duration / 4
simple_sleep_delay(portion)
cpu_intensive_delay(portion)
memory_intensive_delay(portion)
io_simulation_delay(portion)
```

There is no exception handling inside `mixed_delay`, so an exception from a
constituent strategy aborts the remaining quarters. -/

def mixed_delay (duration : ℚ) (env : StratEnv) (w : World) :
    Except (DelayErr × World) World :=
  let w0 := { w with calls := w.calls ++ [(DelayType.mixed, duration)] }
  let portion := duration / 4
  let w1 := simple_sleep_delay portion w0
  let w2 := cpu_intensive_delay portion env.cpuIters w1
  match memory_intensive_delay portion env.memIters w2 with
  | .error e => .error e
  | .ok w3 => io_simulation_delay portion env.ioIters w3

/-- The dispatch through `DELAY_FUNCTIONS[delay_type]` (lines 202-210):
run the selected strategy.  Strategies without an internal failure mode in
the model return normally. -/
def runDelayFunc (t : DelayType) (duration : ℚ) (env : StratEnv) (w : World) :
    Except (DelayErr × World) World :=
  match t with
  | DelayType.simple_sleep => .ok (simple_sleep_delay duration w)
  | DelayType.cpu_intensive => .ok (cpu_intensive_delay duration env.cpuIters w)
  | DelayType.memory_intensive => memory_intensive_delay duration env.memIters w
  | DelayType.io_simulation => io_simulation_delay duration env.ioIters w
  | DelayType.network_simulation => .ok (network_simulation_delay duration env.netIters w)
  | DelayType.mixed => mixed_delay duration env w

/-- The world carried by a delay-strategy result, on success and on
failure alike. -/
def outWorld : Except (DelayErr × World) World → World
  | .ok w => w
  | .error (_, w) => w

/-- The snapshot carried by a memory-loop result, on success and on
failure alike. -/
def memOutSnap : Except (MemFail × MemSnap) MemSnap → MemSnap
  | .ok s => s
  | .error (_, s) => s

/-- The snapshot carried by an io-loop result, on success and on
failure alike. -/
def ioOutSnap : Except (IoFail × IoSnap) IoSnap → IoSnap
  | .ok s => s
  | .error (_, s) => s

/-! ## Delay configuration and `apply_delay` (late_levitwo.py lines 70-80, 212-235)

The session-state delay settings and the `apply_delay(stage)` wrapper:

```python
def apply_delay(stage):
    if not st.session_state.delay_enabled:
        return
    should_apply = False
    if stage == "before_llm" and st.session_state.delay_before_llm:
        should_apply = True
    elif stage == "after_llm" and st.session_state.delay_after_llm:
        should_apply = True
    if should_apply:
        delay_func_name, delay_func = DELAY_FUNCTIONS[st.session_state.delay_type]
        duration = st.session_state.delay_duration
        with st.spinner(...):
            start_time = time.time()
            try:
                delay_func(duration)
                actual_duration = time.time() - start_time
                st.info(...)
            except Exception as e:
                actual_duration = time.time() - start_time
                st.warning(...)
```
-/

/-- The delay-related session state of `late_levitwo.py`. -/
structure DelayConfig where
  delay_enabled : Bool
  delay_type : DelayType
  delay_duration : ℚ
  delay_before_llm : Bool
  delay_after_llm : Bool
deriving DecidableEq

/-- The message `apply_delay` displays after running the delay function:
`st.info` with the measured elapsed time on success, `st.warning` with the
caught exception and the partial elapsed time on failure. -/
inductive DelayMsg
  | info (actual : ℚ)
  | warning (e : DelayErr) (actual : ℚ)
deriving DecidableEq

/-- Observable outcome of one `apply_delay` call: whether a delay function
was invoked, the measured `actual_duration` (absent when not invoked), the
displayed message, and the world afterwards.  `apply_delay` itself never
raises: its `try/except Exception` absorbs every delay-function error. -/
structure ApplyResult where
  invoked : Bool
  actual_duration : Option ℚ
  message : Option DelayMsg
  world : World
deriving DecidableEq

def apply_delay (cfg : DelayConfig) (stage : String) (env : StratEnv) (w : World) : ApplyResult :=
  if cfg.delay_enabled = false then ⟨false, none, none, w⟩
  else
    let should_apply :=
      if stage = "before_llm" ∧ cfg.delay_before_llm = true then true
      else if stage = "after_llm" ∧ cfg.delay_after_llm = true then true
      else false
    if should_apply then
      let start_time := w.clock
      match runDelayFunc cfg.delay_type cfg.delay_duration env w with
      | .ok w' =>
          ⟨true, some (w'.clock - start_time), some (DelayMsg.info (w'.clock - start_time)), w'⟩
      | .error (e, w') =>
          ⟨true, some (w'.clock - start_time), some (DelayMsg.warning e (w'.clock - start_time)), w'⟩
    else ⟨false, none, none, w⟩

/-! ## The chat handler of `late_levitwo.py` (lines 492-611)

The `if user_input:` block: optional pre-delay, the `invoke_model` call,
optional post-delay, response extraction, the stored
`last_response_data` record, the delay-info expander with its efficiency
percentage, all inside one `try/except`. -/

/-- Environment of one chat turn: the wall-time cost of each glue step
between two `time.time()` reads, the environments of the two optional delay
stages, the external call's outcome (its duration, or the exception it
raised), the extracted response text (`""` models extraction failure), and
the token counts of the response. -/
structure ChatEnv where
  ovStart : ℚ
  preEnv : StratEnv
  ovMid : ℚ
  llm : Except String ℚ
  ovPost : ℚ
  postEnv : StratEnv
  ovParse : ℚ
  assistantText : String
  total_tokens : ℕ
  prompt_tokens : ℕ
  completion_tokens : ℕ
  temperature : ℚ
  top_p : ℚ

/-- The external call either raised, or returned after a nonnegative time. -/
def llmNonneg : Except String ℚ → Prop
  | .ok l => 0 ≤ l
  | .error _ => True

instance : (e : Except String ℚ) → Decidable (llmNonneg e)
  | .ok l => inferInstanceAs (Decidable (0 ≤ l))
  | .error _ => inferInstanceAs (Decidable True)

/-- All wall-time costs of the chat-turn environment are nonnegative. -/
def ChatEnv.Nonneg (env : ChatEnv) : Prop :=
  0 ≤ env.ovStart ∧ 0 ≤ env.ovMid ∧ 0 ≤ env.ovPost ∧ 0 ≤ env.ovParse ∧
  env.preEnv.Nonneg ∧ env.postEnv.Nonneg ∧ llmNonneg env.llm

instance (env : ChatEnv) : Decidable env.Nonneg := by
  unfold ChatEnv.Nonneg; infer_instance

/-- The stored `st.session_state.last_response_data` record (lines 580-590). -/
structure ResponseData where
  response_time_ms : ℤ
  llm_only_time_ms : ℤ
  total_delay_ms : ℤ
  before_llm_delay_ms : Option ℤ
  after_llm_delay_ms : Option ℤ
  total_tokens : ℕ
  prompt_tokens : ℕ
  completion_tokens : ℕ
  temperature : ℚ
  top_p : ℚ
deriving DecidableEq

/-- The `st.error` messages a chat turn can end with: the external call
raised (line 610's `except` clause), the response text could not be
extracted (line 608), or the efficiency computation divided by zero
(line 604, also landing in line 610's `except` clause). -/
inductive ChatErr
  | llmError (msg : String)
  | extractEmpty
  | zeroDivision
deriving DecidableEq

/-- Observable outcome of one chat turn: the assistant message appended to
the transcript (if any), the stored response record (if any), the displayed
efficiency percentage (if any), the displayed error (if any), and the final
world. -/
structure ChatOutcome where
  assistantAppended : Option String
  lastResponseData : Option ResponseData
  efficiencyShown : Option ℚ
  errorShown : Option ChatErr
  world : World
deriving DecidableEq

/-- Lines 506-509: the pre-LLM delay stage.  Returns the world afterwards
and the recorded `delay_times["before_llm"]` entry. -/
def preBlock (cfg : DelayConfig) (env : ChatEnv) (w0 : World) : World × Option ℚ :=
  if cfg.delay_enabled && cfg.delay_before_llm then
    let wOv := { w0 with clock := w0.clock + env.ovStart }
    let delay_start := wOv.clock
    let r := apply_delay cfg "before_llm" env.preEnv wOv
    (r.world, some (r.world.clock - delay_start))
  else ({ w0 with clock := w0.clock + env.ovStart }, none)

/-- Lines 547-551: the post-LLM delay stage.  Returns the world afterwards
and the recorded `delay_times["after_llm"]` entry. -/
def postBlock (cfg : DelayConfig) (env : ChatEnv) (w3 : World) : World × Option ℚ :=
  if cfg.delay_enabled && cfg.delay_after_llm then
    let wOv := { w3 with clock := w3.clock + env.ovPost }
    let delay_start := wOv.clock
    let r := apply_delay cfg "after_llm" env.postEnv wOv
    (r.world, some (r.world.clock - delay_start))
  else ({ w3 with clock := w3.clock + env.ovPost }, none)

/-- The body of the `try` block of the chat handler (lines 502-608) together
with its `except` clause (610-611).  Session mutations performed before an
exception (the appended assistant message, the stored record) persist. -/
def user_input_handler (cfg : DelayConfig) (env : ChatEnv) (w0 : World) : ChatOutcome :=
  let start_time := w0.clock
  let pre := preBlock cfg env w0
  let beforeDelay := pre.2
  let w2 := { pre.1 with clock := pre.1.clock + env.ovMid }
  let llm_start_time := w2.clock
  match env.llm with
  | .error e => ⟨none, none, none, some (ChatErr.llmError e), w2⟩
  | .ok llmDur =>
      let w3 := { w2 with clock := w2.clock + llmDur }
      let llm_duration := w3.clock - llm_start_time
      let post := postBlock cfg env w3
      let afterDelay := post.2
      let w5 := { post.1 with clock := post.1.clock + env.ovParse }
      if env.assistantText = "" then ⟨none, none, none, some ChatErr.extractEmpty, w5⟩
      else
        let total_duration := msOf (w5.clock - start_time)
        let llm_duration_ms := msOf llm_duration
        let beforeMs := beforeDelay.map msOf
        let afterMs := afterDelay.map msOf
        let total_delay_ms := beforeMs.getD 0 + afterMs.getD 0
        let rdata : ResponseData :=
          ⟨total_duration, llm_duration_ms, total_delay_ms, beforeMs, afterMs,
           env.total_tokens, env.prompt_tokens, env.completion_tokens,
           env.temperature, env.top_p⟩
        if cfg.delay_enabled && (beforeDelay.isSome || afterDelay.isSome) then
          if total_duration = 0 then
            ⟨some env.assistantText, some rdata, none, some ChatErr.zeroDivision, w5⟩
          else
            let efficiency := ((llm_duration_ms : ℚ) / (total_duration : ℚ)) * 100
            ⟨some env.assistantText, some rdata, some efficiency, none, w5⟩
        else ⟨some env.assistantText, some rdata, none, none, w5⟩

end Workshop

namespace Leveltwo

/-! ## `run_direct_bedrock_workflow` of `leveltwo.py` (lines 117-264)

`start_time` is taken at the top of the workflow; collector initialisation,
role-event recording and request construction follow before `invoke_model`,
and response parsing, telemetry recording and token extraction follow after
it, before `total_duration = int((time.time() - start_time) * 1000)` is
measured.  The returned dictionary sets `llm_time_ms`, `total_time_ms` and
`response_time_ms` all to `total_duration`. -/

/-- Environment of one workflow run: the wall time of everything between
`start_time` and the `invoke_model` call, the call's outcome, the wall time
of everything between the call's return and the `total_duration`
measurement, and the extracted response text. -/
structure WfEnv where
  ovPre : ℚ
  llm : Except String ℚ
  ovPost : ℚ
  assistantText : String

/-- The timing fields of the returned result dictionary (lines 243-260). -/
structure WfInfo where
  llm_time_ms : ℤ
  total_time_ms : ℤ
  response_time_ms : ℤ
deriving DecidableEq

/-- Observable outcome of the workflow.  `callStart` and `callEnd` are the
wall-clock instants immediately before `invoke_model` is issued and
immediately after it returns; the source takes no `time.time()` reading at
either instant, but they are recorded here so that claims about the true
call window can be stated. -/
structure WfOutcome where
  response : Option String
  info : Option WfInfo
  errorShown : Option String
  callStart : ℚ
  callEnd : ℚ
deriving DecidableEq

def run_direct_bedrock_workflow (env : WfEnv) (t0 : ℚ) : WfOutcome :=
  let start_time := t0
  let callStart := t0 + env.ovPre
  match env.llm with
  | .error e => ⟨none, none, some e, callStart, callStart⟩
  | .ok d =>
      let callEnd := callStart + d
      let total_duration := msOf (callEnd + env.ovPost - start_time)
      ⟨some env.assistantText, some ⟨total_duration, total_duration, total_duration⟩,
       none, callStart, callEnd⟩

/-- Observable outcome of the calling chat block (lines 589-618):
the appended assistant message, the updated `st.session_state.raw_result`
(`none` means left unchanged), and whether the no-response warning was
shown. -/
structure TurnOutcome where
  assistantAppended : Option String
  raw_result : Option WfInfo
  warned : Bool
deriving DecidableEq

def chat_turn (env : WfEnv) (t0 : ℚ) : TurnOutcome :=
  let r := run_direct_bedrock_workflow env t0
  match r.response with
  | none => ⟨none, none, true⟩
  | some text => if text = "" then ⟨none, none, true⟩ else ⟨some text, r.info, false⟩

end Leveltwo

/-! # Arithmetic facts about truncation -/

theorem pyInt_of_nonneg {q : ℚ} (h : 0 ≤ q) : pyInt q = ⌊q⌋ := by
  simp [pyInt, h]

theorem pyInt_nonneg {q : ℚ} (h : 0 ≤ q) : 0 ≤ pyInt q := by
  rw [pyInt_of_nonneg h]
  exact Int.floor_nonneg.mpr h

theorem msOf_nonneg {q : ℚ} (h : 0 ≤ q) : 0 ≤ msOf q :=
  pyInt_nonneg (by positivity)

/-- The floor function is superadditive. -/
theorem floor_add_floor_le (a b : ℚ) : ⌊a⌋ + ⌊b⌋ ≤ ⌊a + b⌋ := by
  have : ((⌊a⌋ + ⌊b⌋ : ℤ) : ℚ) ≤ a + b := by
    push_cast
    exact add_le_add (Int.floor_le a) (Int.floor_le b)
  exact Int.le_floor.mpr this

/-- The floor of a sum exceeds the sum of floors by at most one per extra
summand. -/
theorem floor_add_le_add_floor (a b : ℚ) : ⌊a + b⌋ ≤ ⌊a⌋ + ⌊b⌋ + 1 := by
  have h : a + b < ((⌊a⌋ + ⌊b⌋ + 1 + 1 : ℤ) : ℚ) := by
    push_cast
    have ha := Int.lt_floor_add_one a
    have hb := Int.lt_floor_add_one b
    linarith
  have := Int.floor_lt.mpr h
  omega

theorem msOf_eq_floor {q : ℚ} (h : 0 ≤ q) : msOf q = ⌊q * 1000⌋ :=
  pyInt_of_nonneg (by positivity)

theorem msOf_mono {a b : ℚ} (ha : 0 ≤ a) (h : a ≤ b) : msOf a ≤ msOf b := by
  rw [msOf_eq_floor ha, msOf_eq_floor (ha.trans h)]
  exact Int.floor_le_floor (by nlinarith)

theorem msOf_add_ge {a b : ℚ} (ha : 0 ≤ a) (hb : 0 ≤ b) :
    msOf a + msOf b ≤ msOf (a + b) := by
  rw [msOf_eq_floor ha, msOf_eq_floor hb, msOf_eq_floor (by linarith), add_mul]
  exact floor_add_floor_le _ _

theorem msOf_add_le {a b : ℚ} (ha : 0 ≤ a) (hb : 0 ≤ b) :
    msOf (a + b) ≤ msOf a + msOf b + 1 := by
  rw [msOf_eq_floor ha, msOf_eq_floor hb, msOf_eq_floor (by linarith), add_mul]
  exact floor_add_le_add_floor _ _

theorem msOf_zero : msOf 0 = 0 := by
  rw [msOf_eq_floor le_rfl]
  norm_num

namespace Workshop

/-! # Clock, log and structure lemmas about the Delay Engine -/

theorem cpuLoop_clock_le (target : ℚ) (l : List ℚ) (w : World) (h : ∀ d ∈ l, 0 ≤ d) :
    w.clock ≤ (cpuLoop target l w).clock := by
  induction l generalizing w with
  | nil => simp [cpuLoop]
  | cons d rest ih =>
      simp only [cpuLoop]
      split
      · have h1 : (0 : ℚ) ≤ d := h d (by simp)
        have h2 := ih { w with clock := w.clock + d } (fun x hx => h x (by simp [hx]))
        simp only at h2
        linarith
      · exact le_rfl

theorem cpuLoop_frame (target : ℚ) (l : List ℚ) (w : World) :
    (cpuLoop target l w).disk = w.disk ∧ (cpuLoop target l w).nextFile = w.nextFile ∧
    (cpuLoop target l w).calls = w.calls := by
  induction l generalizing w with
  | nil => simp [cpuLoop]
  | cons d rest ih =>
      simp only [cpuLoop]
      split
      · exact ih { w with clock := w.clock + d }
      · exact ⟨rfl, rfl, rfl⟩

theorem netLoop_clock_le (target : ℚ) (l : List ℚ) (w : World) (h : ∀ d ∈ l, 0 ≤ d) :
    w.clock ≤ (netLoop target l w).clock := by
  induction l generalizing w with
  | nil => simp [netLoop]
  | cons d rest ih =>
      simp only [netLoop]
      split
      · have h1 : (0 : ℚ) ≤ d := h d (by simp)
        have h2 := ih { w with clock := w.clock + d } (fun x hx => h x (by simp [hx]))
        simp only at h2
        linarith
      · exact le_rfl

theorem netLoop_frame (target : ℚ) (l : List ℚ) (w : World) :
    (netLoop target l w).disk = w.disk ∧ (netLoop target l w).nextFile = w.nextFile ∧
    (netLoop target l w).calls = w.calls := by
  induction l generalizing w with
  | nil => simp [netLoop]
  | cons d rest ih =>
      simp only [netLoop]
      split
      · exact ih { w with clock := w.clock + d }
      · exact ⟨rfl, rfl, rfl⟩

/-- Every iteration of the memory loop advances the clock by exactly its
wall-time cost, wherever it stops. -/
theorem memIterRun_clock (it : MemIter) (s : MemSnap) :
    (memOutSnap (memIterRun it s).2).w.clock = s.w.clock + it.dt := by
  rcases it with ⟨dt, fail⟩
  rcases fail with _ | f
  · simp [memIterRun, memOutSnap]
    split <;> rfl
  · cases f <;> simp [memIterRun, memOutSnap] <;> split <;> rfl

/-- The memory loop does not touch the disk, the file counter or the call
log, and only advances the clock. -/
theorem memIterRun_frame (it : MemIter) (s : MemSnap) :
    (memOutSnap (memIterRun it s).2).w.disk = s.w.disk ∧
    (memOutSnap (memIterRun it s).2).w.nextFile = s.w.nextFile ∧
    (memOutSnap (memIterRun it s).2).w.calls = s.w.calls := by
  rcases it with ⟨dt, fail⟩
  rcases fail with _ | f
  · simp [memIterRun, memOutSnap]
    split <;> exact ⟨rfl, rfl, rfl⟩
  · cases f <;> simp [memIterRun, memOutSnap] <;> split <;> exact ⟨rfl, rfl, rfl⟩

theorem memLoop_clock_le (target : ℚ) (l : List MemIter) (s : MemSnap)
    (h : ∀ it ∈ l, 0 ≤ it.dt) :
    s.w.clock ≤ (memOutSnap (memLoop target l s).2).w.clock := by
  induction l generalizing s with
  | nil => simp [memLoop, memOutSnap]
  | cons it rest ih =>
      simp only [memLoop]
      split
      · rcases hrun : memIterRun it s with ⟨snaps, out⟩
        have hclock := memIterRun_clock it s
        rw [hrun] at hclock
        have hdt : (0 : ℚ) ≤ it.dt := h it (by simp)
        rcases out with e | s'
        · simp only [memOutSnap] at hclock ⊢
          rcases e with ⟨e, se⟩
          simp only [memOutSnap] at hclock
          linarith [hclock.ge]
        · simp only [memOutSnap] at hclock
          have h2 := ih s' (fun x hx => h x (by simp [hx]))
          simp only
          linarith
      · exact le_rfl

theorem memLoop_frame (target : ℚ) (l : List MemIter) (s : MemSnap) :
    (memOutSnap (memLoop target l s).2).w.disk = s.w.disk ∧
    (memOutSnap (memLoop target l s).2).w.nextFile = s.w.nextFile ∧
    (memOutSnap (memLoop target l s).2).w.calls = s.w.calls := by
  induction l generalizing s with
  | nil => simp [memLoop, memOutSnap]
  | cons it rest ih =>
      simp only [memLoop]
      split
      · rcases hrun : memIterRun it s with ⟨snaps, out⟩
        have hframe := memIterRun_frame it s
        rw [hrun] at hframe
        rcases out with e | s'
        · rcases e with ⟨e, se⟩
          simpa [memOutSnap] using hframe
        · simp only [memOutSnap] at hframe
          have h2 := ih s'
          simp only
          rw [hframe.1] at h2
          rw [hframe.2.1] at h2
          rw [hframe.2.2] at h2
          exact h2
      · exact ⟨rfl, rfl, rfl⟩

/-- With no injected failure, the memory loop completes normally. -/
theorem memLoop_ok_of_noFail (target : ℚ) (l : List MemIter) (s : MemSnap)
    (h : ∀ it ∈ l, it.fail = none) :
    ∃ s', (memLoop target l s).2 = .ok s' := by
  induction l generalizing s with
  | nil => exact ⟨s, rfl⟩
  | cons it rest ih =>
      have hf : it.fail = none := h it (by simp)
      rcases it with ⟨dt, fail⟩
      simp only at hf
      subst hf
      simp only [memLoop, memIterRun]
      norm_num
      split
      · exact ih _ (fun x hx => h x (by simp [hx]))
      · exact ⟨s, rfl⟩

end Workshop

namespace Workshop

/-- Every iteration of the io loop advances the clock by exactly its
wall-time cost, wherever it stops. -/
theorem ioIterRun_clock (it : IoIter) (s : IoSnap) :
    (ioOutSnap (ioIterRun it s).2).w.clock = s.w.clock + it.dt := by
  rcases it with ⟨dt, fail⟩
  rcases fail with _ | f
  · simp [ioIterRun, ioOutSnap]
    split <;> rfl
  · cases f <;> simp [ioIterRun, ioOutSnap]

/-- The io loop does not touch the call log. -/
theorem ioIterRun_calls (it : IoIter) (s : IoSnap) :
    (ioOutSnap (ioIterRun it s).2).w.calls = s.w.calls := by
  rcases it with ⟨dt, fail⟩
  rcases fail with _ | f
  · simp [ioIterRun, ioOutSnap]
    split <;> rfl
  · cases f <;> simp [ioIterRun, ioOutSnap]

theorem ioLoop_clock_le (target : ℚ) (l : List IoIter) (s : IoSnap)
    (h : ∀ it ∈ l, 0 ≤ it.dt) :
    s.w.clock ≤ (ioOutSnap (ioLoop target l s).2).w.clock := by
  induction l generalizing s with
  | nil => simp [ioLoop, ioOutSnap]
  | cons it rest ih =>
      simp only [ioLoop]
      split
      · rcases hrun : ioIterRun it s with ⟨snaps, out⟩
        have hclock := ioIterRun_clock it s
        rw [hrun] at hclock
        have hdt : (0 : ℚ) ≤ it.dt := h it (by simp)
        rcases out with e | s'
        · rcases e with ⟨e, se⟩
          simp only [ioOutSnap] at hclock ⊢
          linarith [hclock.ge]
        · simp only [ioOutSnap] at hclock
          have h2 := ih s' (fun x hx => h x (by simp [hx]))
          simp only
          linarith
      · exact le_rfl

theorem ioLoop_calls (target : ℚ) (l : List IoIter) (s : IoSnap) :
    (ioOutSnap (ioLoop target l s).2).w.calls = s.w.calls := by
  induction l generalizing s with
  | nil => simp [ioLoop, ioOutSnap]
  | cons it rest ih =>
      simp only [ioLoop]
      split
      · rcases hrun : ioIterRun it s with ⟨snaps, out⟩
        have hcalls := ioIterRun_calls it s
        rw [hrun] at hcalls
        rcases out with e | s'
        · rcases e with ⟨e, se⟩
          simpa [ioOutSnap] using hcalls
        · simp only [ioOutSnap] at hcalls
          have h2 := ih s'
          simp only
          rw [h2, hcalls]
      · rfl

/-- With no injected failure, the io loop completes normally. -/
theorem ioLoop_ok_of_noFail (target : ℚ) (l : List IoIter) (s : IoSnap)
    (h : ∀ it ∈ l, it.fail = none) :
    ∃ s', (ioLoop target l s).2 = .ok s' := by
  induction l generalizing s with
  | nil => exact ⟨s, rfl⟩
  | cons it rest ih =>
      have hf : it.fail = none := h it (by simp)
      rcases it with ⟨dt, fail⟩
      simp only at hf
      subst hf
      simp only [ioLoop, ioIterRun]
      norm_num
      split
      · exact ih _ (fun x hx => h x (by simp [hx]))
      · exact ⟨s, rfl⟩

/-- Removing, one by one, the elements of a front segment of a list leaves
its remainder. -/
theorem foldl_erase_front (l m : List ℕ) :
    l.foldl (fun d f => d.erase f) (l ++ m) = m := by
  induction l with
  | nil => rfl
  | cons a rest ih =>
      simp only [List.foldl_cons, List.cons_append, List.erase_cons_head]
      exact ih

theorem suffix_append_single {l m : List ℕ} (a : ℕ) (h : l <:+ m) :
    l ++ [a] <:+ m ++ [a] := by
  obtain ⟨t, rfl⟩ := h
  exact ⟨t, (List.append_assoc t l [a]).symm⟩

end Workshop


namespace Workshop

theorem erase_headI {l : List ℕ} (h : l ≠ []) : l.erase l.headI = l.tail := by
  rcases l with _ | ⟨a, t⟩
  · cases h rfl
  · simp [List.headI, List.erase_cons_head]

/-- Unfolding of an io iteration that raises during the write: the fresh
file is on disk but not tracked. -/
theorem ioIterRun_atWrite_eq (dt : ℚ) (s : IoSnap) :
    ioIterRun ⟨dt, some IoFail.atWrite⟩ s =
      ([⟨{ s.w with clock := s.w.clock + dt, disk := s.w.disk ++ [s.w.nextFile], nextFile := s.w.nextFile + 1 }, s.temp_files⟩],
       .error (IoFail.atWrite, ⟨{ s.w with clock := s.w.clock + dt, disk := s.w.disk ++ [s.w.nextFile], nextFile := s.w.nextFile + 1 }, s.temp_files⟩)) := rfl

/-- Unfolding of an io iteration that raises during the read-back. -/
theorem ioIterRun_atRead_eq (dt : ℚ) (s : IoSnap) :
    ioIterRun ⟨dt, some IoFail.atRead⟩ s =
      ([⟨{ s.w with clock := s.w.clock + dt, disk := s.w.disk ++ [s.w.nextFile], nextFile := s.w.nextFile + 1 }, s.temp_files⟩,
        ⟨{ s.w with clock := s.w.clock + dt, disk := s.w.disk ++ [s.w.nextFile], nextFile := s.w.nextFile + 1 }, s.temp_files ++ [s.w.nextFile]⟩],
       .error (IoFail.atRead, ⟨{ s.w with clock := s.w.clock + dt, disk := s.w.disk ++ [s.w.nextFile], nextFile := s.w.nextFile + 1 }, s.temp_files ++ [s.w.nextFile]⟩)) := rfl

/-- Unfolding of an io iteration that raises during the pause. -/
theorem ioIterRun_atSleep_eq (dt : ℚ) (s : IoSnap) :
    ioIterRun ⟨dt, some IoFail.atSleep⟩ s =
      ([⟨{ s.w with clock := s.w.clock + dt, disk := s.w.disk ++ [s.w.nextFile], nextFile := s.w.nextFile + 1 }, s.temp_files⟩,
        ⟨{ s.w with clock := s.w.clock + dt, disk := s.w.disk ++ [s.w.nextFile], nextFile := s.w.nextFile + 1 }, s.temp_files ++ [s.w.nextFile]⟩],
       .error (IoFail.atSleep, ⟨{ s.w with clock := s.w.clock + dt, disk := s.w.disk ++ [s.w.nextFile], nextFile := s.w.nextFile + 1 }, s.temp_files ++ [s.w.nextFile]⟩)) := rfl

/-- Unfolding of a normally completing io iteration, ending in the trim. -/
theorem ioIterRun_none_eq (dt : ℚ) (s : IoSnap) :
    ioIterRun ⟨dt, none⟩ s =
      ([⟨{ s.w with clock := s.w.clock + dt, disk := s.w.disk ++ [s.w.nextFile], nextFile := s.w.nextFile + 1 }, s.temp_files⟩,
        ⟨{ s.w with clock := s.w.clock + dt, disk := s.w.disk ++ [s.w.nextFile], nextFile := s.w.nextFile + 1 }, s.temp_files ++ [s.w.nextFile]⟩,
        if 5 < (s.temp_files ++ [s.w.nextFile]).length then ⟨{ s.w with clock := s.w.clock + dt, disk := (s.w.disk ++ [s.w.nextFile]).erase (s.temp_files ++ [s.w.nextFile]).headI, nextFile := s.w.nextFile + 1 }, (s.temp_files ++ [s.w.nextFile]).tail⟩ else ⟨{ s.w with clock := s.w.clock + dt, disk := s.w.disk ++ [s.w.nextFile], nextFile := s.w.nextFile + 1 }, s.temp_files ++ [s.w.nextFile]⟩],
       .ok (if 5 < (s.temp_files ++ [s.w.nextFile]).length then ⟨{ s.w with clock := s.w.clock + dt, disk := (s.w.disk ++ [s.w.nextFile]).erase (s.temp_files ++ [s.w.nextFile]).headI, nextFile := s.w.nextFile + 1 }, (s.temp_files ++ [s.w.nextFile]).tail⟩ else ⟨{ s.w with clock := s.w.clock + dt, disk := s.w.disk ++ [s.w.nextFile], nextFile := s.w.nextFile + 1 }, s.temp_files ++ [s.w.nextFile]⟩)) := rfl

end Workshop

namespace Workshop

/-- Invariant of the io loop.  Starting from a state whose disk content is
exactly the tracked window (at most five files, the most recently created
ones): every snapshot passed through keeps at most six files on disk and at
most six tracked; a normal exit re-establishes the boundary invariant; an
error exit tracks at most six files, and its disk equals the tracked files,
plus the single untracked fresh file when the failure struck during the
write. -/
theorem ioLoop_inv (target : ℚ) (l : List IoIter) (s : IoSnap)
    (hdisk : s.w.disk = s.temp_files) (hlen : s.temp_files.length ≤ 5)
    (hsuf : s.temp_files <:+ List.range s.w.nextFile) :
    (∀ t ∈ (ioLoop target l s).1, t.w.disk.length ≤ 6 ∧ t.temp_files.length ≤ 6) ∧
    (∀ s', (ioLoop target l s).2 = .ok s' →
        s'.w.disk = s'.temp_files ∧ s'.temp_files.length ≤ 5 ∧
        s'.temp_files <:+ List.range s'.w.nextFile) ∧
    (∀ e s', (ioLoop target l s).2 = .error (e, s') →
        s'.temp_files.length ≤ 6 ∧
        (e = IoFail.atWrite → s'.w.disk = s'.temp_files ++ [s'.w.nextFile - 1]) ∧
        (e ≠ IoFail.atWrite → s'.w.disk = s'.temp_files)) := by
  induction l generalizing s with
  | nil =>
      refine ⟨by simp [ioLoop], ?_, ?_⟩
      · intro s' hs'
        simp only [ioLoop, Except.ok.injEq] at hs'
        subst hs'
        exact ⟨hdisk, hlen, hsuf⟩
      · intro e s' hs'
        simp [ioLoop] at hs'
  | cons it rest ih =>
      simp only [ioLoop]
      split
      · -- the deadline has not been reached: run one iteration
        rcases it with ⟨dt, fail⟩
        rcases fail with _ | f
        · -- normal iteration, then the rest of the loop
          simp only [ioIterRun_none_eq]
          by_cases h5 : 5 < (s.temp_files ++ [s.w.nextFile]).length
          · simp only [if_pos h5]
            simp only [List.length_append, List.length_singleton] at h5
            have hne : s.temp_files ++ [s.w.nextFile] ≠ [] := by simp
            have herase := erase_headI hne
            have hX : ((s.temp_files ++ [s.w.nextFile]).tail).length ≤ 5 := by
              simp
              omega
            have hXdisk : (s.w.disk ++ [s.w.nextFile]).erase
                (s.temp_files ++ [s.w.nextFile]).headI =
                (s.temp_files ++ [s.w.nextFile]).tail := by
              rw [hdisk]
              exact herase
            have hXsuf : (s.temp_files ++ [s.w.nextFile]).tail <:+
                List.range (s.w.nextFile + 1) := by
              refine (List.tail_suffix _).trans ?_
              rw [List.range_succ]
              exact suffix_append_single _ hsuf
            obtain ⟨htr, hok, herr⟩ := ih (⟨{ s.w with clock := s.w.clock + dt, disk := (s.w.disk ++ [s.w.nextFile]).erase (s.temp_files ++ [s.w.nextFile]).headI, nextFile := s.w.nextFile + 1 }, (s.temp_files ++ [s.w.nextFile]).tail⟩ : IoSnap) hXdisk hX hXsuf
            refine ⟨?_, ?_, ?_⟩
            · intro t ht
              simp only [List.cons_append, List.nil_append, List.mem_cons] at ht
              rcases ht with rfl | rfl | rfl | ht
              · constructor
                · simp [hdisk]
                  omega
                · simp only
                  omega
              · constructor
                · simp [hdisk]
                  omega
                · simp only
                  simp
                  omega
              · constructor
                · simp only
                  rw [hXdisk]
                  simp
                  omega
                · simp only
                  simp
                  omega
              · exact htr t ht
            · intro s' hs'
              exact hok s' hs'
            · intro e s' hs'
              exact herr e s' hs'
          · simp only [if_neg h5]
            simp only [List.length_append, List.length_singleton, not_lt] at h5
            have hX : (s.temp_files ++ [s.w.nextFile]).length ≤ 5 := by
              simp
              omega
            have hXsuf : s.temp_files ++ [s.w.nextFile] <:+
                List.range (s.w.nextFile + 1) := by
              rw [List.range_succ]
              exact suffix_append_single _ hsuf
            have hXdisk : s.w.disk ++ [s.w.nextFile] = s.temp_files ++ [s.w.nextFile] := by
              rw [hdisk]
            obtain ⟨htr, hok, herr⟩ := ih (⟨{ s.w with clock := s.w.clock + dt, disk := s.w.disk ++ [s.w.nextFile], nextFile := s.w.nextFile + 1 }, s.temp_files ++ [s.w.nextFile]⟩ : IoSnap) hXdisk hX hXsuf
            refine ⟨?_, ?_, ?_⟩
            · intro t ht
              simp only [List.cons_append, List.nil_append, List.mem_cons] at ht
              rcases ht with rfl | rfl | rfl | ht
              · constructor
                · simp [hdisk]
                  omega
                · simp only
                  omega
              · constructor
                · simp [hdisk]
                  omega
                · simp only
                  simp
                  omega
              · constructor
                · simp [hdisk]
                  omega
                · simp only
                  simp
                  omega
              · exact htr t ht
            · intro s' hs'
              exact hok s' hs'
            · intro e s' hs'
              exact herr e s' hs'
        · -- a failing iteration ends the loop at once
          cases f
          · simp only [ioIterRun_atWrite_eq]
            refine ⟨?_, ?_, ?_⟩
            · intro t ht
              simp only [List.mem_singleton] at ht
              subst ht
              constructor
              · simp [hdisk]
                omega
              · simp only
                omega
            · intro s' hs'
              simp at hs'
            · intro e s' hs'
              simp only [Except.error.injEq, Prod.mk.injEq] at hs'
              obtain ⟨rfl, rfl⟩ := hs'
              refine ⟨by simp only; omega, fun _ => ?_, fun hne => absurd rfl hne⟩
              simp only [Nat.add_sub_cancel]
              rw [hdisk]
          · simp only [ioIterRun_atRead_eq]
            refine ⟨?_, ?_, ?_⟩
            · intro t ht
              simp only [List.mem_cons, List.mem_singleton] at ht
              rcases ht with rfl | rfl | ht
              · constructor
                · simp [hdisk]
                  omega
                · simp only
                  omega
              · constructor
                · simp [hdisk]
                  omega
                · simp only
                  simp
                  omega
              · cases ht
            · intro s' hs'
              simp at hs'
            · intro e s' hs'
              simp only [Except.error.injEq, Prod.mk.injEq] at hs'
              obtain ⟨rfl, rfl⟩ := hs'
              refine ⟨?_, ?_, ?_⟩
              · simp only
                simp
                omega
              · intro h
                exact absurd h (by decide)
              · intro _
                simp only
                rw [hdisk]
          · simp only [ioIterRun_atSleep_eq]
            refine ⟨?_, ?_, ?_⟩
            · intro t ht
              simp only [List.mem_cons, List.mem_singleton] at ht
              rcases ht with rfl | rfl | ht
              · constructor
                · simp [hdisk]
                  omega
                · simp only
                  omega
              · constructor
                · simp [hdisk]
                  omega
                · simp only
                  simp
                  omega
              · cases ht
            · intro s' hs'
              simp at hs'
            · intro e s' hs'
              simp only [Except.error.injEq, Prod.mk.injEq] at hs'
              obtain ⟨rfl, rfl⟩ := hs'
              refine ⟨?_, ?_, ?_⟩
              · simp only
                simp
                omega
              · intro h
                exact absurd h (by decide)
              · intro _
                simp only
                rw [hdisk]
      · -- the deadline was already reached: nothing happens
        refine ⟨by simp, ?_, ?_⟩
        · intro s' hs'
          simp only [Except.ok.injEq] at hs'
          subst hs'
          exact ⟨hdisk, hlen, hsuf⟩
        · intro e s' hs'
          simp at hs'

end Workshop

namespace Workshop

/-- Unfolding of a memory iteration that raises during the allocation:
the block is never retained. -/
theorem memIterRun_atAlloc_eq (dt : ℚ) (s : MemSnap) :
    memIterRun ⟨dt, some MemFail.atAlloc⟩ s =
      ([⟨{ s.w with clock := s.w.clock + dt }, s.blocks, s.nextBlock⟩],
       .error (MemFail.atAlloc, ⟨{ s.w with clock := s.w.clock + dt }, s.blocks, s.nextBlock⟩)) := rfl

/-- Unfolding of a memory iteration that raises during the pause, after the
append and the window trim. -/
theorem memIterRun_atSleep_eq (dt : ℚ) (s : MemSnap) :
    memIterRun ⟨dt, some MemFail.atSleep⟩ s =
      ([⟨{ s.w with clock := s.w.clock + dt }, s.blocks, s.nextBlock⟩,
        ⟨{ s.w with clock := s.w.clock + dt }, s.blocks ++ [s.nextBlock], s.nextBlock + 1⟩,
        if 10 < (s.blocks ++ [s.nextBlock]).length then ⟨{ s.w with clock := s.w.clock + dt }, (s.blocks ++ [s.nextBlock]).tail, s.nextBlock + 1⟩ else ⟨{ s.w with clock := s.w.clock + dt }, s.blocks ++ [s.nextBlock], s.nextBlock + 1⟩],
       .error (MemFail.atSleep, if 10 < (s.blocks ++ [s.nextBlock]).length then ⟨{ s.w with clock := s.w.clock + dt }, (s.blocks ++ [s.nextBlock]).tail, s.nextBlock + 1⟩ else ⟨{ s.w with clock := s.w.clock + dt }, s.blocks ++ [s.nextBlock], s.nextBlock + 1⟩)) := rfl

/-- Unfolding of a normally completing memory iteration. -/
theorem memIterRun_none_eq (dt : ℚ) (s : MemSnap) :
    memIterRun ⟨dt, none⟩ s =
      ([⟨{ s.w with clock := s.w.clock + dt }, s.blocks, s.nextBlock⟩,
        ⟨{ s.w with clock := s.w.clock + dt }, s.blocks ++ [s.nextBlock], s.nextBlock + 1⟩,
        if 10 < (s.blocks ++ [s.nextBlock]).length then ⟨{ s.w with clock := s.w.clock + dt }, (s.blocks ++ [s.nextBlock]).tail, s.nextBlock + 1⟩ else ⟨{ s.w with clock := s.w.clock + dt }, s.blocks ++ [s.nextBlock], s.nextBlock + 1⟩],
       .ok (if 10 < (s.blocks ++ [s.nextBlock]).length then ⟨{ s.w with clock := s.w.clock + dt }, (s.blocks ++ [s.nextBlock]).tail, s.nextBlock + 1⟩ else ⟨{ s.w with clock := s.w.clock + dt }, s.blocks ++ [s.nextBlock], s.nextBlock + 1⟩)) := rfl

/-- Invariant of the memory loop.  Starting from a state whose retained
window holds at most ten of the most recently allocated blocks: every
snapshot passed through retains at most eleven blocks, always the most
recently allocated ones in order, and both normal and error exits retain at
most ten. -/
theorem memLoop_inv (target : ℚ) (l : List MemIter) (s : MemSnap)
    (hlen : s.blocks.length ≤ 10) (hsuf : s.blocks <:+ List.range s.nextBlock) :
    (∀ t ∈ (memLoop target l s).1,
        t.blocks.length ≤ 11 ∧ t.blocks <:+ List.range t.nextBlock) ∧
    (∀ s', (memLoop target l s).2 = .ok s' →
        s'.blocks.length ≤ 10 ∧ s'.blocks <:+ List.range s'.nextBlock) ∧
    (∀ e s', (memLoop target l s).2 = .error (e, s') →
        s'.blocks.length ≤ 10 ∧ s'.blocks <:+ List.range s'.nextBlock) := by
  have hsub : ∀ (t : MemSnap), t.blocks.length ≤ 10 → t.blocks <:+ List.range t.nextBlock →
      ((if 10 < (t.blocks ++ [t.nextBlock]).length then (⟨{ t.w with clock := t.w.clock + 0 }, (t.blocks ++ [t.nextBlock]).tail, t.nextBlock + 1⟩ : MemSnap) else ⟨{ t.w with clock := t.w.clock + 0 }, t.blocks ++ [t.nextBlock], t.nextBlock + 1⟩) : MemSnap).blocks.length ≤ 10 := by
    intro t ht hs
    split
    · simp
      omega
    · rename_i hn
      simp only [List.length_append, List.length_singleton, not_lt] at hn
      simp
      omega
  induction l generalizing s with
  | nil =>
      refine ⟨by simp [memLoop], ?_, ?_⟩
      · intro s' hs'
        simp only [memLoop, Except.ok.injEq] at hs'
        subst hs'
        exact ⟨hlen, hsuf⟩
      · intro e s' hs'
        simp [memLoop] at hs'
  | cons it rest ih =>
      simp only [memLoop]
      split
      · rcases it with ⟨dt, fail⟩
        have hsuf1 : s.blocks ++ [s.nextBlock] <:+ List.range (s.nextBlock + 1) := by
          rw [List.range_succ]
          exact suffix_append_single _ hsuf
        have htailsuf : (s.blocks ++ [s.nextBlock]).tail <:+ List.range (s.nextBlock + 1) :=
          (List.tail_suffix _).trans hsuf1
        rcases fail with _ | f
        · -- normal iteration, then the rest of the loop
          simp only [memIterRun_none_eq]
          by_cases h10 : 10 < (s.blocks ++ [s.nextBlock]).length
          · simp only [if_pos h10]
            simp only [List.length_append, List.length_singleton] at h10
            have hX : ((s.blocks ++ [s.nextBlock]).tail).length ≤ 10 := by
              simp
              omega
            obtain ⟨htr, hok, herr⟩ := ih (⟨{ s.w with clock := s.w.clock + dt }, (s.blocks ++ [s.nextBlock]).tail, s.nextBlock + 1⟩ : MemSnap) hX htailsuf
            refine ⟨?_, ?_, ?_⟩
            · intro t ht
              simp only [List.cons_append, List.nil_append, List.mem_cons] at ht
              rcases ht with rfl | rfl | rfl | ht
              · exact ⟨by simp only; omega, hsuf⟩
              · refine ⟨by simp only; simp; omega, hsuf1⟩
              · refine ⟨by simp only; simp; omega, htailsuf⟩
              · exact htr t ht
            · intro s' hs'
              exact hok s' hs'
            · intro e s' hs'
              exact herr e s' hs'
          · simp only [if_neg h10]
            simp only [List.length_append, List.length_singleton, not_lt] at h10
            have hX : (s.blocks ++ [s.nextBlock]).length ≤ 10 := by
              simp
              omega
            obtain ⟨htr, hok, herr⟩ := ih (⟨{ s.w with clock := s.w.clock + dt }, s.blocks ++ [s.nextBlock], s.nextBlock + 1⟩ : MemSnap) hX hsuf1
            refine ⟨?_, ?_, ?_⟩
            · intro t ht
              simp only [List.cons_append, List.nil_append, List.mem_cons] at ht
              rcases ht with rfl | rfl | rfl | ht
              · exact ⟨by simp only; omega, hsuf⟩
              · refine ⟨by simp only; simp; omega, hsuf1⟩
              · refine ⟨by simp only; simp; omega, hsuf1⟩
              · exact htr t ht
            · intro s' hs'
              exact hok s' hs'
            · intro e s' hs'
              exact herr e s' hs'
        · cases f
          · -- allocation failure: the window is unchanged
            simp only [memIterRun_atAlloc_eq]
            refine ⟨?_, ?_, ?_⟩
            · intro t ht
              simp only [List.mem_singleton] at ht
              subst ht
              exact ⟨by simp only; omega, hsuf⟩
            · intro s' hs'
              simp at hs'
            · intro e s' hs'
              simp only [Except.error.injEq, Prod.mk.injEq] at hs'
              obtain ⟨rfl, rfl⟩ := hs'
              exact ⟨by simp only; omega, hsuf⟩
          · -- pause failure: after the append and the trim
            simp only [memIterRun_atSleep_eq]
            refine ⟨?_, ?_, ?_⟩
            · intro t ht
              simp only [List.mem_cons, List.mem_singleton] at ht
              rcases ht with rfl | rfl | rfl | ht
              · exact ⟨by simp only; omega, hsuf⟩
              · refine ⟨by simp only; simp; omega, hsuf1⟩
              · split
                · refine ⟨by simp only; simp; omega, htailsuf⟩
                · rename_i hn
                  simp only [List.length_append, List.length_singleton, not_lt] at hn
                  refine ⟨by simp only; simp; omega, hsuf1⟩
              · cases ht
            · intro s' hs'
              simp at hs'
            · intro e s' hs'
              simp only [Except.error.injEq, Prod.mk.injEq] at hs'
              obtain ⟨rfl, rfl⟩ := hs'
              split
              · rename_i hgt
                simp only [List.length_append, List.length_singleton] at hgt
                refine ⟨by simp only; simp; omega, htailsuf⟩
              · rename_i hn
                simp only [List.length_append, List.length_singleton, not_lt] at hn
                refine ⟨by simp only; simp; omega, hsuf1⟩
      · refine ⟨by simp, ?_, ?_⟩
        · intro s' hs'
          simp only [Except.ok.injEq] at hs'
          subst hs'
          exact ⟨hlen, hsuf⟩
        · intro e s' hs'
          simp at hs'

end Workshop

namespace Workshop

theorem memory_intensive_delay_outWorld (d : ℚ) (iters : List MemIter) (w : World) :
    outWorld (memory_intensive_delay d iters w) =
      (memOutSnap (memLoop (w.clock + d) iters (memStart d w)).2).w := by
  unfold memory_intensive_delay memory_intensive_delay_run
  rcases h : memLoop (w.clock + d) iters (memStart d w) with ⟨tr, out⟩
  rcases out with ⟨e, sE⟩ | sOk <;> simp [outWorld, memOutSnap]

theorem memory_intensive_delay_clock_le (d : ℚ) (iters : List MemIter) (w : World)
    (h : ∀ it ∈ iters, 0 ≤ it.dt) :
    w.clock ≤ (outWorld (memory_intensive_delay d iters w)).clock := by
  rw [memory_intensive_delay_outWorld]
  exact memLoop_clock_le _ _ _ h

theorem memory_intensive_delay_frame (d : ℚ) (iters : List MemIter) (w : World) :
    (outWorld (memory_intensive_delay d iters w)).calls =
      w.calls ++ [(DelayType.memory_intensive, d)] ∧
    (outWorld (memory_intensive_delay d iters w)).disk = w.disk ∧
    (outWorld (memory_intensive_delay d iters w)).nextFile = w.nextFile := by
  rw [memory_intensive_delay_outWorld]
  obtain ⟨h1, h2, h3⟩ := memLoop_frame (w.clock + d) iters (memStart d w)
  exact ⟨h3, h1, h2⟩

theorem memory_intensive_delay_ok_of_noFail (d : ℚ) (iters : List MemIter) (w : World)
    (h : ∀ it ∈ iters, it.fail = none) :
    memory_intensive_delay d iters w = .ok (outWorld (memory_intensive_delay d iters w)) := by
  obtain ⟨s', hs'⟩ := memLoop_ok_of_noFail (w.clock + d) iters (memStart d w) h
  unfold memory_intensive_delay memory_intensive_delay_run
  rcases hloop : memLoop (w.clock + d) iters (memStart d w) with ⟨tr, out⟩
  rw [hloop] at hs'
  simp only at hs'
  subst hs'
  simp [outWorld]

theorem ioCleanup_clock (s : IoSnap) : (ioCleanup s).clock = s.w.clock := rfl

theorem ioCleanup_calls (s : IoSnap) : (ioCleanup s).calls = s.w.calls := rfl

theorem ioCleanup_nextFile (s : IoSnap) : (ioCleanup s).nextFile = s.w.nextFile := rfl

theorem io_simulation_delay_outWorld (d : ℚ) (iters : List IoIter) (w : World) :
    outWorld (io_simulation_delay d iters w) =
      ioCleanup (ioOutSnap (ioLoop (w.clock + d) iters (ioStart d w)).2) := by
  unfold io_simulation_delay io_simulation_delay_run
  rcases h : ioLoop (w.clock + d) iters (ioStart d w) with ⟨tr, out⟩
  rcases out with ⟨e, sE⟩ | sOk <;> simp [outWorld, ioOutSnap]

theorem io_simulation_delay_clock_le (d : ℚ) (iters : List IoIter) (w : World)
    (h : ∀ it ∈ iters, 0 ≤ it.dt) :
    w.clock ≤ (outWorld (io_simulation_delay d iters w)).clock := by
  rw [io_simulation_delay_outWorld, ioCleanup_clock]
  exact ioLoop_clock_le _ _ _ h

theorem io_simulation_delay_calls (d : ℚ) (iters : List IoIter) (w : World) :
    (outWorld (io_simulation_delay d iters w)).calls =
      w.calls ++ [(DelayType.io_simulation, d)] := by
  rw [io_simulation_delay_outWorld, ioCleanup_calls]
  exact ioLoop_calls _ _ _

theorem io_simulation_delay_ok_of_noFail (d : ℚ) (iters : List IoIter) (w : World)
    (h : ∀ it ∈ iters, it.fail = none) :
    io_simulation_delay d iters w = .ok (outWorld (io_simulation_delay d iters w)) := by
  obtain ⟨s', hs'⟩ := ioLoop_ok_of_noFail (w.clock + d) iters (ioStart d w) h
  unfold io_simulation_delay io_simulation_delay_run
  rcases hloop : ioLoop (w.clock + d) iters (ioStart d w) with ⟨tr, out⟩
  rw [hloop] at hs'
  simp only at hs'
  subst hs'
  simp [outWorld]

theorem simple_sleep_delay_clock (d : ℚ) (w : World) :
    (simple_sleep_delay d w).clock = w.clock + d := rfl

theorem simple_sleep_delay_calls (d : ℚ) (w : World) :
    (simple_sleep_delay d w).calls = w.calls ++ [(DelayType.simple_sleep, d)] := rfl

theorem cpu_intensive_delay_clock_le (d : ℚ) (iters : List ℚ) (w : World)
    (h : ∀ x ∈ iters, 0 ≤ x) :
    w.clock ≤ (cpu_intensive_delay d iters w).clock := by
  unfold cpu_intensive_delay
  exact cpuLoop_clock_le _ _ _ h

theorem cpu_intensive_delay_calls (d : ℚ) (iters : List ℚ) (w : World) :
    (cpu_intensive_delay d iters w).calls = w.calls ++ [(DelayType.cpu_intensive, d)] := by
  unfold cpu_intensive_delay
  exact (cpuLoop_frame _ _ _).2.2

theorem network_simulation_delay_clock_le (d : ℚ) (iters : List ℚ) (w : World)
    (h : ∀ x ∈ iters, 0 ≤ x) :
    w.clock ≤ (network_simulation_delay d iters w).clock := by
  unfold network_simulation_delay
  exact netLoop_clock_le _ _ _ h

/-- The mixed strategy only advances the clock, wherever it stops. -/
theorem mixed_delay_clock_le (d : ℚ) (env : StratEnv) (w : World)
    (hnn : env.Nonneg) (hd : 0 ≤ d) :
    w.clock ≤ (outWorld (mixed_delay d env w)).clock := by
  obtain ⟨hcpu, hmem, hio, hnet⟩ := hnn
  unfold mixed_delay
  dsimp only
  have hp : (0 : ℚ) ≤ d / 4 := by linarith
  set w0 : World := { w with calls := w.calls ++ [(DelayType.mixed, d)] } with hw0
  have h1 : w.clock ≤ (simple_sleep_delay (d / 4) w0).clock := by
    rw [simple_sleep_delay_clock]
    simp [hw0]
    linarith
  have h2 := cpu_intensive_delay_clock_le (d / 4) env.cpuIters (simple_sleep_delay (d / 4) w0) hcpu
  rcases hres : memory_intensive_delay (d / 4) env.memIters (cpu_intensive_delay (d / 4) env.cpuIters (simple_sleep_delay (d / 4) w0)) with e | w3
  · have h3 := memory_intensive_delay_clock_le (d / 4) env.memIters (cpu_intensive_delay (d / 4) env.cpuIters (simple_sleep_delay (d / 4) w0)) hmem
    rw [hres] at h3
    rcases e with ⟨e, we⟩
    simp only [outWorld] at h3
    dsimp only [outWorld]
    linarith
  · have h3 := memory_intensive_delay_clock_le (d / 4) env.memIters (cpu_intensive_delay (d / 4) env.cpuIters (simple_sleep_delay (d / 4) w0)) hmem
    rw [hres] at h3
    simp only [outWorld] at h3
    have h4 := io_simulation_delay_clock_le (d / 4) env.ioIters w3 hio
    dsimp only
    linarith

/-- Any strategy dispatched through `DELAY_FUNCTIONS` only advances the
clock, wherever it stops. -/
theorem runDelayFunc_clock_le (t : DelayType) (d : ℚ) (env : StratEnv) (w : World)
    (hnn : env.Nonneg) (hd : 0 ≤ d) :
    w.clock ≤ (outWorld (runDelayFunc t d env w)).clock := by
  obtain ⟨hcpu, hmem, hio, hnet⟩ := hnn
  cases t
  · simp only [runDelayFunc, outWorld, simple_sleep_delay_clock]
    linarith
  · simp only [runDelayFunc, outWorld]
    exact cpu_intensive_delay_clock_le _ _ _ hcpu
  · exact memory_intensive_delay_clock_le _ _ _ hmem
  · exact io_simulation_delay_clock_le _ _ _ hio
  · simp only [runDelayFunc, outWorld]
    exact network_simulation_delay_clock_le _ _ _ hnet
  · exact mixed_delay_clock_le _ _ _ ⟨hcpu, hmem, hio, hnet⟩ hd

end Workshop

namespace Workshop

/-- The function `apply_delay` never moves the clock backwards. -/
theorem apply_delay_clock_le (cfg : DelayConfig) (stage : String) (env : StratEnv)
    (w : World) (hnn : env.Nonneg) (hd : 0 ≤ cfg.delay_duration) :
    w.clock ≤ (apply_delay cfg stage env w).world.clock := by
  unfold apply_delay
  split
  · exact le_rfl
  · dsimp only
    have h := runDelayFunc_clock_le cfg.delay_type cfg.delay_duration env w hnn hd
    rcases hres : runDelayFunc cfg.delay_type cfg.delay_duration env w with e | w'
    · rcases e with ⟨e, we⟩
      rw [hres] at h
      simp only [outWorld] at h
      split
      · simpa using h
      · split
        · simpa using h
        · simp
    · rw [hres] at h
      simp only [outWorld] at h
      split
      · simpa using h
      · split
        · simpa using h
        · simp

/-- Behaviour of the pre-LLM delay stage: it advances the clock past the
stage-entry overhead by some nonnegative delay time `a`, records `a` exactly
when the delay was configured to run, and records nothing (with `a = 0`)
otherwise. -/
theorem preBlock_spec (cfg : DelayConfig) (env : ChatEnv) (w0 : World)
    (hnn : env.preEnv.Nonneg) (hd : 0 ≤ cfg.delay_duration) :
    ∃ a : ℚ, 0 ≤ a ∧ (preBlock cfg env w0).1.clock = w0.clock + env.ovStart + a ∧
      (preBlock cfg env w0).2 =
        (if cfg.delay_enabled && cfg.delay_before_llm then some a else none) ∧
      ((cfg.delay_enabled && cfg.delay_before_llm) = false → a = 0) := by
  unfold preBlock
  split
  · rename_i hflag
    dsimp only
    refine ⟨(apply_delay cfg "before_llm" env.preEnv { w0 with clock := w0.clock + env.ovStart }).world.clock - (w0.clock + env.ovStart), ?_, by ring, rfl, ?_⟩
    · have h := apply_delay_clock_le cfg "before_llm" env.preEnv { w0 with clock := w0.clock + env.ovStart } hnn hd
      dsimp only at h
      linarith
    · intro hfalse
      rw [hfalse] at hflag
      cases hflag
  · dsimp only
    exact ⟨0, le_rfl, by ring, rfl, fun _ => rfl⟩

/-- Behaviour of the post-LLM delay stage, mirror image of `preBlock_spec`
with the post-stage overhead. -/
theorem postBlock_spec (cfg : DelayConfig) (env : ChatEnv) (w3 : World)
    (hnn : env.postEnv.Nonneg) (hd : 0 ≤ cfg.delay_duration) :
    ∃ b : ℚ, 0 ≤ b ∧ (postBlock cfg env w3).1.clock = w3.clock + env.ovPost + b ∧
      (postBlock cfg env w3).2 =
        (if cfg.delay_enabled && cfg.delay_after_llm then some b else none) ∧
      ((cfg.delay_enabled && cfg.delay_after_llm) = false → b = 0) := by
  unfold postBlock
  split
  · rename_i hflag
    dsimp only
    refine ⟨(apply_delay cfg "after_llm" env.postEnv { w3 with clock := w3.clock + env.ovPost }).world.clock - (w3.clock + env.ovPost), ?_, by ring, rfl, ?_⟩
    · have h := apply_delay_clock_le cfg "after_llm" env.postEnv { w3 with clock := w3.clock + env.ovPost } hnn hd
      dsimp only at h
      linarith
    · intro hfalse
      rw [hfalse] at hflag
      cases hflag
  · dsimp only
    exact ⟨0, le_rfl, by ring, rfl, fun _ => rfl⟩

/-- Whenever the external call returns and a response text is extracted, a
response record is stored — whatever the delay stages did, including when
their pressure generation raised internally. -/
theorem handler_record_exists (cfg : DelayConfig) (env : ChatEnv) (w0 : World) (l : ℚ)
    (hllm : env.llm = .ok l) (htext : env.assistantText ≠ "") :
    ∃ rd, (user_input_handler cfg env w0).lastResponseData = some rd := by
  unfold user_input_handler
  rw [hllm]
  dsimp only
  rw [if_neg htext]
  split
  · split
    · exact ⟨_, rfl⟩
    · exact ⟨_, rfl⟩
  · exact ⟨_, rfl⟩

end Workshop

namespace Workshop

/-- Full characterisation of a successful chat turn.  The recorded
`response_time_ms` is the truncated total span (overheads plus both delay
times plus the call), `llm_only_time_ms` is the truncated call window alone,
`total_delay_ms` is the sum of the truncated delay times, and the efficiency
percentage is shown exactly when the delay-info branch runs with a nonzero
total — with a `ZeroDivisionError` surfacing when that total is zero. -/
theorem handler_core (cfg : DelayConfig) (env : ChatEnv) (w0 : World) (l : ℚ)
    (hnn : env.Nonneg) (hdur : 0 ≤ cfg.delay_duration)
    (hllm : env.llm = .ok l) (htext : env.assistantText ≠ "") :
    ∃ (a b : ℚ) (rd : ResponseData), 0 ≤ a ∧ 0 ≤ b ∧
      (user_input_handler cfg env w0).lastResponseData = some rd ∧
      rd.response_time_ms =
        msOf (env.ovStart + a + env.ovMid + l + env.ovPost + b + env.ovParse) ∧
      rd.llm_only_time_ms = msOf l ∧
      rd.total_delay_ms = msOf a + msOf b ∧
      ((cfg.delay_enabled && (cfg.delay_before_llm || cfg.delay_after_llm)) = true →
        (rd.response_time_ms = 0 →
          (user_input_handler cfg env w0).errorShown = some ChatErr.zeroDivision ∧
          (user_input_handler cfg env w0).efficiencyShown = none) ∧
        (rd.response_time_ms ≠ 0 →
          (user_input_handler cfg env w0).efficiencyShown =
            some ((rd.llm_only_time_ms : ℚ) / (rd.response_time_ms : ℚ) * 100) ∧
          (user_input_handler cfg env w0).errorShown = none)) ∧
      ((cfg.delay_enabled && (cfg.delay_before_llm || cfg.delay_after_llm)) = false →
        (user_input_handler cfg env w0).efficiencyShown = none ∧
        (user_input_handler cfg env w0).errorShown = none) := by
  obtain ⟨hov1, hov2, hov3, hov4, hpre, hpost, hlnn⟩ := hnn
  obtain ⟨a, ha0, haclock, haval, hafalse⟩ := preBlock_spec cfg env w0 hpre hdur
  rcases hpre1 : preBlock cfg env w0 with ⟨w1, bd⟩
  rw [hpre1] at haclock haval
  dsimp only at haclock haval
  obtain ⟨b, hb0, hbclock, hbval, hbfalse⟩ :=
    postBlock_spec cfg env (⟨w1.clock + env.ovMid + l, w1.disk, w1.nextFile, w1.calls⟩ : World) hpost hdur
  rcases hpost1 : postBlock cfg env (⟨w1.clock + env.ovMid + l, w1.disk, w1.nextFile, w1.calls⟩ : World) with ⟨w4, ad⟩
  rw [hpost1] at hbclock hbval
  dsimp only at hbclock hbval
  unfold user_input_handler
  rw [hllm]
  dsimp only
  rw [hpre1]
  dsimp only
  rw [hpost1]
  dsimp only
  rw [if_neg htext]
  have hTot : w4.clock + env.ovParse - w0.clock =
      env.ovStart + a + env.ovMid + l + env.ovPost + b + env.ovParse := by
    rw [hbclock, haclock]
    ring
  have hLlm : w1.clock + env.ovMid + l - (w1.clock + env.ovMid) = l := by ring
  rw [hTot, hLlm]
  subst haval
  subst hbval
  by_cases hB : (cfg.delay_enabled && cfg.delay_before_llm) = true
  · obtain ⟨hen, hbf⟩ := Bool.and_eq_true_iff.mp hB
    rw [if_pos hB]
    by_cases hA : (cfg.delay_enabled && cfg.delay_after_llm) = true
    · obtain ⟨-, haf⟩ := Bool.and_eq_true_iff.mp hA
      rw [if_pos hA]
      simp only [Option.map_some, Option.getD_some, Option.isSome_some, Bool.or_self,
        Bool.and_true, hen]
      by_cases hz : msOf (env.ovStart + a + env.ovMid + l + env.ovPost + b + env.ovParse) = 0
      · rw [if_pos trivial, if_pos hz]
        refine ⟨a, b, _, ha0, hb0, rfl, rfl, rfl, rfl, ?_, ?_⟩
        · intro _
          exact ⟨fun _ => ⟨rfl, rfl⟩, fun hne => absurd hz hne⟩
        · intro hfalse
          simp [hbf] at hfalse
      · rw [if_pos trivial, if_neg hz]
        refine ⟨a, b, _, ha0, hb0, rfl, rfl, rfl, rfl, ?_, ?_⟩
        · intro _
          exact ⟨fun hzz => absurd hzz hz, fun _ => ⟨rfl, rfl⟩⟩
        · intro hfalse
          simp [hbf] at hfalse
    · rw [if_neg hA]
      have hAf : (cfg.delay_enabled && cfg.delay_after_llm) = false := by
        revert hA
        cases cfg.delay_enabled && cfg.delay_after_llm <;> simp
      have hb00 : b = 0 := hbfalse hAf
      subst hb00
      simp only [Option.map_some, Option.getD_some, Option.map_none, Option.getD_none,
        Option.isSome_some, Option.isSome_none, Bool.or_false, Bool.and_true, hen, msOf_zero]
      by_cases hz : msOf (env.ovStart + a + env.ovMid + l + env.ovPost + 0 + env.ovParse) = 0
      · rw [if_pos trivial, if_pos hz]
        refine ⟨a, 0, _, ha0, le_rfl, rfl, rfl, rfl, by simp [msOf_zero], ?_, ?_⟩
        · intro _
          exact ⟨fun _ => ⟨rfl, rfl⟩, fun hne => absurd hz hne⟩
        · intro hfalse
          simp [hbf] at hfalse
      · rw [if_pos trivial, if_neg hz]
        refine ⟨a, 0, _, ha0, le_rfl, rfl, rfl, rfl, by simp [msOf_zero], ?_, ?_⟩
        · intro _
          exact ⟨fun hzz => absurd hzz hz, fun _ => ⟨rfl, rfl⟩⟩
        · intro hfalse
          simp [hbf] at hfalse
  · rw [if_neg hB]
    have hBf : (cfg.delay_enabled && cfg.delay_before_llm) = false := by
      revert hB
      cases cfg.delay_enabled && cfg.delay_before_llm <;> simp
    have ha00 : a = 0 := hafalse hBf
    subst ha00
    by_cases hA : (cfg.delay_enabled && cfg.delay_after_llm) = true
    · obtain ⟨hen, haf⟩ := Bool.and_eq_true_iff.mp hA
      rw [if_pos hA]
      simp only [Option.map_some, Option.getD_some, Option.map_none, Option.getD_none,
        Option.isSome_some, Option.isSome_none, Bool.false_or, Bool.and_true, hen, msOf_zero]
      by_cases hz : msOf (env.ovStart + 0 + env.ovMid + l + env.ovPost + b + env.ovParse) = 0
      · rw [if_pos trivial, if_pos hz]
        refine ⟨0, b, _, le_rfl, hb0, rfl, rfl, rfl, by simp [msOf_zero], ?_, ?_⟩
        · intro _
          exact ⟨fun _ => ⟨rfl, rfl⟩, fun hne => absurd hz hne⟩
        · intro hfalse
          simp [haf] at hfalse
      · rw [if_pos trivial, if_neg hz]
        refine ⟨0, b, _, le_rfl, hb0, rfl, rfl, rfl, by simp [msOf_zero], ?_, ?_⟩
        · intro _
          exact ⟨fun hzz => absurd hzz hz, fun _ => ⟨rfl, rfl⟩⟩
        · intro hfalse
          simp [haf] at hfalse
    · rw [if_neg hA]
      have hAf : (cfg.delay_enabled && cfg.delay_after_llm) = false := by
        revert hA
        cases cfg.delay_enabled && cfg.delay_after_llm <;> simp
      have hb00 : b = 0 := hbfalse hAf
      subst hb00
      simp only [Option.map_none, Option.getD_none, Option.isSome_none, Bool.or_self,
        Bool.and_false, msOf_zero]
      rw [if_neg Bool.false_ne_true]
      refine ⟨0, 0, _, le_rfl, le_rfl, rfl, rfl, rfl, by simp [msOf_zero], ?_, ?_⟩
      · intro htrue
        rcases Bool.and_eq_true_iff.mp htrue with ⟨hen, hor⟩
        rw [hen] at hBf hAf
        simp only [Bool.true_and] at hBf hAf
        rw [hBf, hAf] at hor
        simp at hor
      · intro _
        exact ⟨rfl, rfl⟩
end Workshop

namespace Workshop

/-- An error exit of the io loop carries the failure injected by one of its
iterations. -/
theorem ioLoop_error_source (target : ℚ) (l : List IoIter) (s : IoSnap) (e : IoFail)
    (s' : IoSnap) (h : (ioLoop target l s).2 = .error (e, s')) :
    ∃ it ∈ l, it.fail = some e := by
  induction l generalizing s with
  | nil => simp [ioLoop] at h
  | cons it rest ih =>
      simp only [ioLoop] at h
      split at h
      · rcases it with ⟨dt, fail⟩
        rcases fail with _ | f
        · rw [ioIterRun_none_eq] at h
          dsimp only at h
          obtain ⟨it', hmem, hf⟩ := ih _ h
          exact ⟨it', List.mem_cons_of_mem _ hmem, hf⟩
        · cases f
          · rw [ioIterRun_atWrite_eq] at h
            dsimp only at h
            simp only [Except.error.injEq, Prod.mk.injEq] at h
            obtain ⟨rfl, -⟩ := h
            exact ⟨⟨dt, some IoFail.atWrite⟩, List.mem_cons_self _ _, rfl⟩
          · rw [ioIterRun_atRead_eq] at h
            dsimp only at h
            simp only [Except.error.injEq, Prod.mk.injEq] at h
            obtain ⟨rfl, -⟩ := h
            exact ⟨⟨dt, some IoFail.atRead⟩, List.mem_cons_self _ _, rfl⟩
          · rw [ioIterRun_atSleep_eq] at h
            dsimp only at h
            simp only [Except.error.injEq, Prod.mk.injEq] at h
            obtain ⟨rfl, -⟩ := h
            exact ⟨⟨dt, some IoFail.atSleep⟩, List.mem_cons_self _ _, rfl⟩
      · simp at h

end Workshop

open Workshop Leveltwo

/-- C4: if the external inference call raises, that invocation ends as a
failure in both variants: the error is reported as a hard failure, no
partial result is synthesized, no assistant message is appended to the
transcript, and no successful timing/response record is stored. -/
theorem c4_external_call_error (cfg : DelayConfig) (env : ChatEnv) (w0 : World) (e : String)
    (wenv : WfEnv) (t0 : ℚ) (e2 : String)
    (hllm : env.llm = .error e) (hwllm : wenv.llm = .error e2) :
    (user_input_handler cfg env w0).assistantAppended = none ∧
    (user_input_handler cfg env w0).lastResponseData = none ∧
    (user_input_handler cfg env w0).efficiencyShown = none ∧
    (user_input_handler cfg env w0).errorShown = some (ChatErr.llmError e) ∧
    (run_direct_bedrock_workflow wenv t0).response = none ∧
    (run_direct_bedrock_workflow wenv t0).info = none ∧
    (run_direct_bedrock_workflow wenv t0).errorShown = some e2 ∧
    (chat_turn wenv t0).assistantAppended = none ∧
    (chat_turn wenv t0).raw_result = none := by
  unfold user_input_handler chat_turn run_direct_bedrock_workflow
  rw [hllm, hwllm]
  dsimp only
  exact ⟨rfl, rfl, rfl, rfl, rfl, rfl, rfl, rfl, rfl⟩

/-- Witness for C4 at a concrete failing call. -/
theorem c4_external_call_error_witness :
    (⟨0, ⟨[], [], [], []⟩, 0, .error "boom", 0, ⟨[], [], [], []⟩, 0, "", 0, 0, 0, 0, 0⟩ : ChatEnv).llm = .error "boom" ∧
    (⟨0, .error "boom2", 0, "hi"⟩ : WfEnv).llm = .error "boom2" ∧
    ((user_input_handler ⟨true, DelayType.simple_sleep, 1, true, false⟩ ⟨0, ⟨[], [], [], []⟩, 0, .error "boom", 0, ⟨[], [], [], []⟩, 0, "", 0, 0, 0, 0, 0⟩ ⟨0, [], 0, []⟩).assistantAppended = none ∧
     (user_input_handler ⟨true, DelayType.simple_sleep, 1, true, false⟩ ⟨0, ⟨[], [], [], []⟩, 0, .error "boom", 0, ⟨[], [], [], []⟩, 0, "", 0, 0, 0, 0, 0⟩ ⟨0, [], 0, []⟩).lastResponseData = none ∧
     (user_input_handler ⟨true, DelayType.simple_sleep, 1, true, false⟩ ⟨0, ⟨[], [], [], []⟩, 0, .error "boom", 0, ⟨[], [], [], []⟩, 0, "", 0, 0, 0, 0, 0⟩ ⟨0, [], 0, []⟩).efficiencyShown = none ∧
     (user_input_handler ⟨true, DelayType.simple_sleep, 1, true, false⟩ ⟨0, ⟨[], [], [], []⟩, 0, .error "boom", 0, ⟨[], [], [], []⟩, 0, "", 0, 0, 0, 0, 0⟩ ⟨0, [], 0, []⟩).errorShown = some (ChatErr.llmError "boom") ∧
     (run_direct_bedrock_workflow ⟨0, .error "boom2", 0, "hi"⟩ 0).response = none ∧
     (run_direct_bedrock_workflow ⟨0, .error "boom2", 0, "hi"⟩ 0).info = none ∧
     (run_direct_bedrock_workflow ⟨0, .error "boom2", 0, "hi"⟩ 0).errorShown = some "boom2" ∧
     (chat_turn ⟨0, .error "boom2", 0, "hi"⟩ 0).assistantAppended = none ∧
     (chat_turn ⟨0, .error "boom2", 0, "hi"⟩ 0).raw_result = none) :=
  ⟨rfl, rfl, c4_external_call_error _ _ _ _ _ _ _ rfl rfl⟩

/-- C10: `apply_delay(stage)` is a no-op when delay injection is disabled,
when the stage is "before_llm" and the before-flag is off, when the stage is
"after_llm" and the after-flag is off, or when the stage is any other
string: it returns immediately with the world unchanged (no waiting), it
invokes no delay function, and the corresponding recorded delay entry of a
chat turn stays absent. -/
theorem c10_apply_delay_noop (cfg : DelayConfig) (stage : String) (env : StratEnv)
    (cenv : ChatEnv) (w w0 w3 : World)
    (h : cfg.delay_enabled = false ∨ (stage = "before_llm" ∧ cfg.delay_before_llm = false) ∨
         (stage = "after_llm" ∧ cfg.delay_after_llm = false) ∨
         (stage ≠ "before_llm" ∧ stage ≠ "after_llm")) :
    apply_delay cfg stage env w = ⟨false, none, none, w⟩ ∧
    ((cfg.delay_enabled && cfg.delay_before_llm) = false → (preBlock cfg cenv w0).2 = none) ∧
    ((cfg.delay_enabled && cfg.delay_after_llm) = false → (postBlock cfg cenv w3).2 = none) := by
  refine ⟨?_, ?_, ?_⟩
  · unfold apply_delay
    rcases h with h1 | ⟨hs, hf⟩ | ⟨hs, hf⟩ | ⟨hs1, hs2⟩
    · rw [if_pos h1]
    · subst hs
      by_cases he : cfg.delay_enabled = false
      · rw [if_pos he]
      · rw [if_neg he]
        dsimp only
        have hc1 : ¬(("before_llm" : String) = "before_llm" ∧ cfg.delay_before_llm = true) := by
          simp [hf]
        have hc2 : ¬(("before_llm" : String) = "after_llm" ∧ cfg.delay_after_llm = true) := by
          intro hcon
          exact absurd hcon.1 (by decide)
        rw [if_neg hc1, if_neg hc2, if_neg Bool.false_ne_true]
    · subst hs
      by_cases he : cfg.delay_enabled = false
      · rw [if_pos he]
      · rw [if_neg he]
        dsimp only
        have hc1 : ¬(("after_llm" : String) = "before_llm" ∧ cfg.delay_before_llm = true) := by
          intro hcon
          exact absurd hcon.1 (by decide)
        have hc2 : ¬(("after_llm" : String) = "after_llm" ∧ cfg.delay_after_llm = true) := by
          simp [hf]
        rw [if_neg hc1, if_neg hc2, if_neg Bool.false_ne_true]
    · by_cases he : cfg.delay_enabled = false
      · rw [if_pos he]
      · rw [if_neg he]
        dsimp only
        have hc1 : ¬(stage = "before_llm" ∧ cfg.delay_before_llm = true) := fun hcon => hs1 hcon.1
        have hc2 : ¬(stage = "after_llm" ∧ cfg.delay_after_llm = true) := fun hcon => hs2 hcon.1
        rw [if_neg hc1, if_neg hc2, if_neg Bool.false_ne_true]
  · intro hflag
    unfold preBlock
    rw [hflag]
    rw [if_neg Bool.false_ne_true]
  · intro hflag
    unfold postBlock
    rw [hflag]
    rw [if_neg Bool.false_ne_true]

/-- Witness for C10 at a concrete disabled configuration and an unknown
stage string. -/
theorem c10_apply_delay_noop_witness :
    ((false : Bool) = false ∨ (("other" : String) = "before_llm" ∧ (true : Bool) = false) ∨
      (("other" : String) = "after_llm" ∧ (true : Bool) = false) ∨
      (("other" : String) ≠ "before_llm" ∧ ("other" : String) ≠ "after_llm")) ∧
    (apply_delay ⟨false, DelayType.cpu_intensive, 2, true, true⟩ "other" ⟨[], [], [], []⟩ ⟨5, [], 0, []⟩ = ⟨false, none, none, ⟨5, [], 0, []⟩⟩ ∧
     ((false && true) = false → (preBlock ⟨false, DelayType.cpu_intensive, 2, true, true⟩ ⟨0, ⟨[], [], [], []⟩, 0, .ok 1, 0, ⟨[], [], [], []⟩, 0, "hi", 0, 0, 0, 0, 0⟩ ⟨0, [], 0, []⟩).2 = none) ∧
     ((false && true) = false → (postBlock ⟨false, DelayType.cpu_intensive, 2, true, true⟩ ⟨0, ⟨[], [], [], []⟩, 0, .ok 1, 0, ⟨[], [], [], []⟩, 0, "hi", 0, 0, 0, 0, 0⟩ ⟨0, [], 0, []⟩).2 = none)) :=
  ⟨Or.inl rfl, c10_apply_delay_noop _ "other" _ _ _ _ _ (Or.inl rfl)⟩

/-- C2: for every strategy and positive target duration, running a delay
returns normally to the caller: `apply_delay` measures the (possibly
partial) elapsed time, any exception from the pressure-generation loop is
caught and surfaced only as a warning message, and execution continues to
the external call, which still produces its response record. -/
theorem c2_delay_engine_never_raises (cfg : DelayConfig) (env : StratEnv) (w : World)
    (cenv : ChatEnv) (w0 : World)
    (hnn : env.Nonneg) (hdur : 0 < cfg.delay_duration)
    (hen : cfg.delay_enabled = true) (hbf : cfg.delay_before_llm = true) :
    (∃ t, (apply_delay cfg "before_llm" env w).actual_duration = some t ∧ 0 ≤ t ∧
        (apply_delay cfg "before_llm" env w).world.clock = w.clock + t) ∧
    (∀ e w', runDelayFunc cfg.delay_type cfg.delay_duration env w = .error (e, w') →
        apply_delay cfg "before_llm" env w =
          ⟨true, some (w'.clock - w.clock), some (DelayMsg.warning e (w'.clock - w.clock)), w'⟩) ∧
    (∀ l, cenv.llm = .ok l → cenv.assistantText ≠ "" →
        ∃ rd, (user_input_handler cfg cenv w0).lastResponseData = some rd) := by
  have h1 : ¬(cfg.delay_enabled = false) := by simp [hen]
  have hclk := runDelayFunc_clock_le cfg.delay_type cfg.delay_duration env w hnn (le_of_lt hdur)
  have happ : apply_delay cfg "before_llm" env w =
      (match runDelayFunc cfg.delay_type cfg.delay_duration env w with
       | .ok w' => (⟨true, some (w'.clock - w.clock), some (DelayMsg.info (w'.clock - w.clock)), w'⟩ : ApplyResult)
       | .error (e, w') => ⟨true, some (w'.clock - w.clock), some (DelayMsg.warning e (w'.clock - w.clock)), w'⟩) := by
    unfold apply_delay
    rw [if_neg h1]
    dsimp only
    have hc : (("before_llm" : String) = "before_llm" ∧ cfg.delay_before_llm = true) := ⟨rfl, hbf⟩
    rw [if_pos hc, if_pos rfl]
  refine ⟨?_, ?_, ?_⟩
  · rcases hres : runDelayFunc cfg.delay_type cfg.delay_duration env w with ⟨e, w'⟩ | w'
    · rw [hres] at happ hclk
      dsimp only at happ
      simp only [outWorld] at hclk
      rw [happ]
      exact ⟨w'.clock - w.clock, rfl, by linarith, by dsimp only; ring⟩
    · rw [hres] at happ hclk
      dsimp only at happ
      simp only [outWorld] at hclk
      rw [happ]
      exact ⟨w'.clock - w.clock, rfl, by linarith, by dsimp only; ring⟩
  · intro e w' hres
    rw [hres] at happ
    dsimp only at happ
    exact happ
  · intro l hllm htext
    exact handler_record_exists cfg cenv w0 l hllm htext

/-- Witness for C2: the memory strategy raising at its first allocation is
caught, timed and warned about, and the chat turn still stores a record. -/
theorem c2_delay_engine_never_raises_witness :
    (⟨[], [⟨0, some MemFail.atAlloc⟩], [], []⟩ : StratEnv).Nonneg ∧ (0 : ℚ) < 1 ∧
    ((∃ t, (apply_delay ⟨true, DelayType.memory_intensive, 1, true, false⟩ "before_llm" ⟨[], [⟨0, some MemFail.atAlloc⟩], [], []⟩ ⟨0, [], 0, []⟩).actual_duration = some t ∧ 0 ≤ t ∧
        (apply_delay ⟨true, DelayType.memory_intensive, 1, true, false⟩ "before_llm" ⟨[], [⟨0, some MemFail.atAlloc⟩], [], []⟩ ⟨0, [], 0, []⟩).world.clock = (⟨0, [], 0, []⟩ : World).clock + t) ∧
     (∀ e w', runDelayFunc DelayType.memory_intensive 1 ⟨[], [⟨0, some MemFail.atAlloc⟩], [], []⟩ ⟨0, [], 0, []⟩ = .error (e, w') →
        apply_delay ⟨true, DelayType.memory_intensive, 1, true, false⟩ "before_llm" ⟨[], [⟨0, some MemFail.atAlloc⟩], [], []⟩ ⟨0, [], 0, []⟩ =
          ⟨true, some (w'.clock - (⟨0, [], 0, []⟩ : World).clock), some (DelayMsg.warning e (w'.clock - (⟨0, [], 0, []⟩ : World).clock)), w'⟩) ∧
     (∀ l, (⟨0, ⟨[], [⟨0, some MemFail.atAlloc⟩], [], []⟩, 0, .ok 1, 0, ⟨[], [], [], []⟩, 0, "hi", 0, 0, 0, 0, 0⟩ : ChatEnv).llm = .ok l →
        (⟨0, ⟨[], [⟨0, some MemFail.atAlloc⟩], [], []⟩, 0, .ok 1, 0, ⟨[], [], [], []⟩, 0, "hi", 0, 0, 0, 0, 0⟩ : ChatEnv).assistantText ≠ "" →
        ∃ rd, (user_input_handler ⟨true, DelayType.memory_intensive, 1, true, false⟩ ⟨0, ⟨[], [⟨0, some MemFail.atAlloc⟩], [], []⟩, 0, .ok 1, 0, ⟨[], [], [], []⟩, 0, "hi", 0, 0, 0, 0, 0⟩ ⟨0, [], 0, []⟩).lastResponseData = some rd)) :=
  ⟨by decide, by norm_num,
   c2_delay_engine_never_raises ⟨true, DelayType.memory_intensive, 1, true, false⟩
     ⟨[], [⟨0, some MemFail.atAlloc⟩], [], []⟩ ⟨0, [], 0, []⟩
     ⟨0, ⟨[], [⟨0, some MemFail.atAlloc⟩], [], []⟩, 0, .ok 1, 0, ⟨[], [], [], []⟩, 0, "hi", 0, 0, 0, 0, 0⟩
     ⟨0, [], 0, []⟩ (by decide) (by norm_num) rfl rfl⟩

/-- C7: for every positive duration `d`, the mixed strategy partitions `d`
into four equal quarters and invokes exactly the sleep, cpu, memory and io
strategies sequentially in that order, each with target `d / 4`; the four
targets sum back to `d`. -/
theorem c7_mixed_partition (d : ℚ) (env : StratEnv) (w : World)
    (hd : 0 < d) (hnf : env.NoFail) :
    ∃ w', mixed_delay d env w = .ok w' ∧
      w'.calls = w.calls ++ [(DelayType.mixed, d), (DelayType.simple_sleep, d / 4),
        (DelayType.cpu_intensive, d / 4), (DelayType.memory_intensive, d / 4),
        (DelayType.io_simulation, d / 4)] ∧
      d / 4 + d / 4 + d / 4 + d / 4 = d := by
  obtain ⟨hmem, hio⟩ := hnf
  have hmemok := memory_intensive_delay_ok_of_noFail (d / 4) env.memIters
    (cpu_intensive_delay (d / 4) env.cpuIters (simple_sleep_delay (d / 4) { w with calls := w.calls ++ [(DelayType.mixed, d)] })) hmem
  have hiook := io_simulation_delay_ok_of_noFail (d / 4) env.ioIters
    (outWorld (memory_intensive_delay (d / 4) env.memIters (cpu_intensive_delay (d / 4) env.cpuIters (simple_sleep_delay (d / 4) { w with calls := w.calls ++ [(DelayType.mixed, d)] })))) hio
  unfold mixed_delay
  dsimp only
  rw [hmemok]
  dsimp only
  rw [hiook]
  refine ⟨_, rfl, ?_, by ring⟩
  rw [io_simulation_delay_calls]
  rw [(memory_intensive_delay_frame (d / 4) env.memIters _).1]
  rw [cpu_intensive_delay_calls]
  rw [simple_sleep_delay_calls]
  dsimp only
  simp [List.append_assoc]

/-- Witness for C7 at a concrete duration and an empty iteration budget. -/
theorem c7_mixed_partition_witness :
    (0 : ℚ) < 2 ∧ (⟨[], [], [], []⟩ : StratEnv).NoFail ∧
    (∃ w', mixed_delay 2 ⟨[], [], [], []⟩ ⟨0, [], 0, []⟩ = .ok w' ∧
      w'.calls = ([] : List (DelayType × ℚ)) ++ [(DelayType.mixed, 2), (DelayType.simple_sleep, 2 / 4),
        (DelayType.cpu_intensive, 2 / 4), (DelayType.memory_intensive, 2 / 4),
        (DelayType.io_simulation, 2 / 4)] ∧
      (2 : ℚ) / 4 + 2 / 4 + 2 / 4 + 2 / 4 = 2) :=
  ⟨by norm_num, by decide,
   c7_mixed_partition 2 ⟨[], [], [], []⟩ ⟨0, [], 0, []⟩ (by norm_num) (by decide)⟩

/-- C9: a memory-strategy run keeps a bounded sliding window of the most
recently allocated buffers — at most eleven are retained at any instant,
the window is always a suffix of the allocation order (oldest discarded
first once it exceeds ten), every loop exit (normal or error) retains at
most ten — and the retained list is cleared before the function returns on
both the normal and the error path. -/
theorem c9_memory_window (d : ℚ) (iters : List MemIter) (w : World) :
    (memory_intensive_delay_run d iters w).2.finalBlocks = [] ∧
    (∀ s ∈ (memory_intensive_delay_run d iters w).1,
        s.blocks.length ≤ 11 ∧ s.blocks <:+ List.range s.nextBlock) ∧
    (∀ s', (memLoop (w.clock + d) iters (memStart d w)).2 = .ok s' →
        s'.blocks.length ≤ 10) ∧
    (∀ e s', (memLoop (w.clock + d) iters (memStart d w)).2 = .error (e, s') →
        s'.blocks.length ≤ 10) := by
  obtain ⟨htr, hok, herr⟩ := memLoop_inv (w.clock + d) iters (memStart d w)
    (by norm_num [memStart]) List.nil_suffix
  refine ⟨?_, ?_, fun s' hs' => (hok s' hs').1, fun e s' hs' => (herr e s' hs').1⟩
  · unfold memory_intensive_delay_run
    rcases hloop : memLoop (w.clock + d) iters (memStart d w) with ⟨tr, out⟩
    rcases out with ⟨e, sE⟩ | sOk
    · rfl
    · rfl
  · intro s hs
    unfold memory_intensive_delay_run at hs
    rcases hloop : memLoop (w.clock + d) iters (memStart d w) with ⟨tr, out⟩
    rw [hloop] at hs htr
    dsimp only at htr
    rcases out with ⟨e, sE⟩ | sOk
    · dsimp only at hs
      exact htr s hs
    · dsimp only at hs
      exact htr s hs

/-- Witness for C9 at a concrete run. -/
theorem c9_memory_window_witness :
    (memory_intensive_delay_run 1 [⟨1 / 10, none⟩] ⟨0, [], 0, []⟩).2.finalBlocks = [] ∧
    (∀ s ∈ (memory_intensive_delay_run 1 [⟨1 / 10, none⟩] ⟨0, [], 0, []⟩).1,
        s.blocks.length ≤ 11 ∧ s.blocks <:+ List.range s.nextBlock) ∧
    (∀ s', (memLoop ((⟨0, [], 0, []⟩ : World).clock + 1) [⟨1 / 10, none⟩] (memStart 1 ⟨0, [], 0, []⟩)).2 = .ok s' →
        s'.blocks.length ≤ 10) ∧
    (∀ e s', (memLoop ((⟨0, [], 0, []⟩ : World).clock + 1) [⟨1 / 10, none⟩] (memStart 1 ⟨0, [], 0, []⟩)).2 = .error (e, s') →
        s'.blocks.length ≤ 10) :=
  c9_memory_window 1 [⟨1 / 10, none⟩] ⟨0, [], 0, []⟩

/-- C8 counterexample: an io run aborted by an exception raised while
writing the freshly created (not yet tracked) temporary file leaves that
file on disk after the `finally` cleanup — the claim that zero files remain
after error completion is false. -/
theorem c8_io_cleanup_counterexample :
    (outWorld (io_simulation_delay 2 [⟨1 / 10, some IoFail.atWrite⟩] ⟨0, [], 0, []⟩)).disk = [0] ∧
    (outWorld (io_simulation_delay 2 [⟨1 / 10, some IoFail.atWrite⟩] ⟨0, [], 0, []⟩)).disk ≠ [] := by
  have h : (outWorld (io_simulation_delay 2 [⟨1 / 10, some IoFail.atWrite⟩] ⟨0, [], 0, []⟩)).disk = [0] := by
    norm_num [io_simulation_delay, io_simulation_delay_run, ioStart, ioLoop, ioIterRun,
      ioCleanup, outWorld]
  exact ⟨h, by rw [h]; simp⟩

/-- C8 (amended): during an io run at most six files exist at any moment
(at most five tracked at every loop boundary, the tracked window being the
most recently created files, oldest deleted first); after completion every
tracked file has been deleted, so any run whose iterations never fail
during a write — including error completions at other points — leaves zero
files behind; a run aborted during a write leaves exactly the one untracked
file. -/
theorem c8_io_cleanup_amended (d : ℚ) (iters : List IoIter) (w : World) (hdisk : w.disk = []) :
    (∀ s ∈ (io_simulation_delay_run d iters w).1,
        s.w.disk.length ≤ 6 ∧ s.temp_files.length ≤ 6) ∧
    (∀ s', (ioLoop (w.clock + d) iters (ioStart d w)).2 = .ok s' →
        s'.w.disk = s'.temp_files ∧ s'.temp_files.length ≤ 5 ∧
        s'.temp_files <:+ List.range s'.w.nextFile) ∧
    ((∀ it ∈ iters, it.fail ≠ some IoFail.atWrite) →
        (outWorld (io_simulation_delay d iters w)).disk = []) ∧
    (∀ w', io_simulation_delay d iters w = .error (DelayErr.io IoFail.atWrite, w') →
        w'.disk.length = 1) := by
  obtain ⟨htr, hok, herr⟩ := ioLoop_inv (w.clock + d) iters (ioStart d w)
    hdisk (by norm_num [ioStart]) List.nil_suffix
  refine ⟨?_, hok, ?_, ?_⟩
  · intro s hs
    unfold io_simulation_delay_run at hs
    rcases hloop : ioLoop (w.clock + d) iters (ioStart d w) with ⟨tr, out⟩
    rw [hloop] at hs htr
    dsimp only at htr
    rcases out with ⟨e, sE⟩ | sOk
    · dsimp only at hs
      exact htr s hs
    · dsimp only at hs
      exact htr s hs
  · intro hnw
    rw [io_simulation_delay_outWorld]
    rcases hloop : ioLoop (w.clock + d) iters (ioStart d w) with ⟨tr, out⟩
    rcases out with ⟨e, sE⟩ | sOk
    · have hsrc := ioLoop_error_source (w.clock + d) iters (ioStart d w) e sE (by rw [hloop])
      obtain ⟨it, hmem, hf⟩ := hsrc
      have hne : e ≠ IoFail.atWrite := by
        intro he
        subst he
        exact (hnw it hmem) hf
      have hinv := herr e sE (by rw [hloop])
      have hdisk2 := hinv.2.2 hne
      dsimp only [ioOutSnap]
      unfold ioCleanup
      dsimp only
      rw [hdisk2]
      have hfold := foldl_erase_front sE.temp_files []
      rw [List.append_nil] at hfold
      exact hfold
    · have hinv := hok sOk (by rw [hloop])
      dsimp only [ioOutSnap]
      unfold ioCleanup
      dsimp only
      rw [hinv.1]
      have hfold := foldl_erase_front sOk.temp_files []
      rw [List.append_nil] at hfold
      exact hfold
  · intro w' hres
    unfold io_simulation_delay io_simulation_delay_run at hres
    rcases hloop : ioLoop (w.clock + d) iters (ioStart d w) with ⟨tr, out⟩
    rw [hloop] at hres
    rcases out with ⟨e, sE⟩ | sOk
    · dsimp only at hres
      simp only [Except.error.injEq, Prod.mk.injEq, DelayErr.io.injEq] at hres
      obtain ⟨he, hw'⟩ := hres
      subst he
      subst hw'
      have hinv := herr IoFail.atWrite sE (by rw [hloop])
      have hd2 := hinv.2.1 rfl
      unfold ioCleanup
      dsimp only
      rw [hd2, foldl_erase_front]
      rfl
    · dsimp only at hres
      cases hres

/-- Witness for C8 (amended) at a concrete clean run. -/
theorem c8_io_cleanup_amended_witness :
    (⟨0, [], 0, []⟩ : World).disk = [] ∧
    ((∀ s ∈ (io_simulation_delay_run 2 [⟨1 / 10, none⟩] ⟨0, [], 0, []⟩).1,
        s.w.disk.length ≤ 6 ∧ s.temp_files.length ≤ 6) ∧
     (∀ s', (ioLoop ((⟨0, [], 0, []⟩ : World).clock + 2) [⟨1 / 10, none⟩] (ioStart 2 ⟨0, [], 0, []⟩)).2 = .ok s' →
        s'.w.disk = s'.temp_files ∧ s'.temp_files.length ≤ 5 ∧
        s'.temp_files <:+ List.range s'.w.nextFile) ∧
     ((∀ it ∈ [(⟨1 / 10, none⟩ : IoIter)], it.fail ≠ some IoFail.atWrite) →
        (outWorld (io_simulation_delay 2 [⟨1 / 10, none⟩] ⟨0, [], 0, []⟩)).disk = []) ∧
     (∀ w', io_simulation_delay 2 [⟨1 / 10, none⟩] ⟨0, [], 0, []⟩ = .error (DelayErr.io IoFail.atWrite, w') →
        w'.disk.length = 1)) :=
  ⟨rfl, c8_io_cleanup_amended 2 [⟨1 / 10, none⟩] ⟨0, [], 0, []⟩ rfl⟩

/-- C1: for every combination of injection flags, the stored timing record
of one external-call invocation satisfies
`response_time_ms == total_delay_ms + llm_only_time_ms` within timer
resolution: the difference is nonnegative and bounded by the truncated
non-delay overhead between the timestamp reads plus three milliseconds of
integer truncation. -/
theorem c1_timing_breakdown_consistency (cfg : DelayConfig) (env : ChatEnv) (w0 : World) (l : ℚ)
    (hnn : env.Nonneg) (hdur : 0 ≤ cfg.delay_duration)
    (hllm : env.llm = .ok l) (htext : env.assistantText ≠ "") :
    ∃ rd, (user_input_handler cfg env w0).lastResponseData = some rd ∧
      0 ≤ rd.response_time_ms - (rd.total_delay_ms + rd.llm_only_time_ms) ∧
      rd.response_time_ms - (rd.total_delay_ms + rd.llm_only_time_ms) ≤
        msOf (env.ovStart + env.ovMid + env.ovPost + env.ovParse) + 3 := by
  obtain ⟨a, b, rd, ha0, hb0, hrd, hresp, hllmms, hdel, -, -⟩ :=
    handler_core cfg env w0 l hnn hdur hllm htext
  have hl0 : 0 ≤ l := by
    have h := hnn.2.2.2.2.2.2
    rw [hllm] at h
    exact h
  obtain ⟨hov1, hov2, hov3, hov4, -, -, -⟩ := hnn
  refine ⟨rd, hrd, ?_, ?_⟩
  · rw [hresp, hllmms, hdel]
    have h1 : msOf a + msOf b ≤ msOf (a + b) := msOf_add_ge ha0 hb0
    have h2 : msOf (a + b) + msOf l ≤ msOf (a + b + l) := msOf_add_ge (by linarith) hl0
    have h3 : msOf (a + b + l) ≤
        msOf (env.ovStart + a + env.ovMid + l + env.ovPost + b + env.ovParse) :=
      msOf_mono (by linarith) (by linarith)
    linarith
  · rw [hresp, hllmms, hdel]
    have hE0 : 0 ≤ env.ovStart + env.ovMid + env.ovPost + env.ovParse := by linarith
    have hcongr : msOf (env.ovStart + a + env.ovMid + l + env.ovPost + b + env.ovParse) =
        msOf (a + (b + (l + (env.ovStart + env.ovMid + env.ovPost + env.ovParse)))) := by
      congr 1
      ring
    rw [hcongr]
    have h1 : msOf (a + (b + (l + (env.ovStart + env.ovMid + env.ovPost + env.ovParse)))) ≤
        msOf a + msOf (b + (l + (env.ovStart + env.ovMid + env.ovPost + env.ovParse))) + 1 :=
      msOf_add_le ha0 (by linarith)
    have h2 : msOf (b + (l + (env.ovStart + env.ovMid + env.ovPost + env.ovParse))) ≤
        msOf b + msOf (l + (env.ovStart + env.ovMid + env.ovPost + env.ovParse)) + 1 :=
      msOf_add_le hb0 (by linarith)
    have h3 : msOf (l + (env.ovStart + env.ovMid + env.ovPost + env.ovParse)) ≤
        msOf l + msOf (env.ovStart + env.ovMid + env.ovPost + env.ovParse) + 1 :=
      msOf_add_le hl0 hE0
    linarith

/-- Witness for C1 with both delay stages enabled and zero glue overhead. -/
theorem c1_timing_breakdown_consistency_witness :
    (⟨0, ⟨[], [], [], []⟩, 0, .ok 1, 0, ⟨[], [], [], []⟩, 0, "hi", 0, 0, 0, 0, 0⟩ : ChatEnv).Nonneg ∧
    (0 : ℚ) ≤ 1 ∧
    (∃ rd, (user_input_handler ⟨true, DelayType.simple_sleep, 1, true, true⟩ ⟨0, ⟨[], [], [], []⟩, 0, .ok 1, 0, ⟨[], [], [], []⟩, 0, "hi", 0, 0, 0, 0, 0⟩ ⟨0, [], 0, []⟩).lastResponseData = some rd ∧
      0 ≤ rd.response_time_ms - (rd.total_delay_ms + rd.llm_only_time_ms) ∧
      rd.response_time_ms - (rd.total_delay_ms + rd.llm_only_time_ms) ≤
        msOf ((0 : ℚ) + 0 + 0 + 0) + 3) :=
  ⟨by decide, by norm_num,
   c1_timing_breakdown_consistency ⟨true, DelayType.simple_sleep, 1, true, true⟩
     ⟨0, ⟨[], [], [], []⟩, 0, .ok 1, 0, ⟨[], [], [], []⟩, 0, "hi", 0, 0, 0, 0, 0⟩
     ⟨0, [], 0, []⟩ 1 (by decide) (by norm_num) rfl (by decide)⟩

/-- C5 counterexample: with the pre-delay stage enabled but erroring
instantly and a sub-millisecond call, every truncated duration is zero, and
the efficiency computation divides by the zero total: the run ends in a
`ZeroDivisionError` shown by the outer handler instead of an undefined
marker — the division is not guarded. -/
theorem c5_efficiency_guard_counterexample :
    (user_input_handler ⟨true, DelayType.memory_intensive, 1, true, false⟩ ⟨0, ⟨[], [⟨0, some MemFail.atAlloc⟩], [], []⟩, 0, .ok 0, 0, ⟨[], [], [], []⟩, 0, "hi", 0, 0, 0, 0, 0⟩ ⟨0, [], 0, []⟩).errorShown = some ChatErr.zeroDivision ∧
    (user_input_handler ⟨true, DelayType.memory_intensive, 1, true, false⟩ ⟨0, ⟨[], [⟨0, some MemFail.atAlloc⟩], [], []⟩, 0, .ok 0, 0, ⟨[], [], [], []⟩, 0, "hi", 0, 0, 0, 0, 0⟩ ⟨0, [], 0, []⟩).efficiencyShown = none ∧
    (user_input_handler ⟨true, DelayType.memory_intensive, 1, true, false⟩ ⟨0, ⟨[], [⟨0, some MemFail.atAlloc⟩], [], []⟩, 0, .ok 0, 0, ⟨[], [], [], []⟩, 0, "hi", 0, 0, 0, 0, 0⟩ ⟨0, [], 0, []⟩).lastResponseData ≠ none := by
  norm_num [user_input_handler, preBlock, postBlock, apply_delay, runDelayFunc,
    memory_intensive_delay, memory_intensive_delay_run, memStart, memLoop, memIterRun,
    outWorld, msOf, pyInt]
  rw [if_neg (show ¬(("hi" : String) = "") from by decide)]
  refine ⟨rfl, rfl, by simp⟩

/-- C5 (amended): the efficiency percentage is computed as
`llm_only_time_ms / response_time_ms * 100` whenever the delay-info branch
runs and the total is nonzero; when the total is zero the division is not
guarded — it raises `ZeroDivisionError`, which the surrounding handler
reports as an error instead of an undefined marker. -/
theorem c5_efficiency_guard_amended (cfg : DelayConfig) (env : ChatEnv) (w0 : World) (l : ℚ)
    (hnn : env.Nonneg) (hdur : 0 ≤ cfg.delay_duration)
    (hllm : env.llm = .ok l) (htext : env.assistantText ≠ "") :
    ∃ rd, (user_input_handler cfg env w0).lastResponseData = some rd ∧
      ((cfg.delay_enabled && (cfg.delay_before_llm || cfg.delay_after_llm)) = true →
        (rd.response_time_ms ≠ 0 →
          (user_input_handler cfg env w0).efficiencyShown =
            some ((rd.llm_only_time_ms : ℚ) / (rd.response_time_ms : ℚ) * 100) ∧
          (user_input_handler cfg env w0).errorShown = none) ∧
        (rd.response_time_ms = 0 →
          (user_input_handler cfg env w0).errorShown = some ChatErr.zeroDivision ∧
          (user_input_handler cfg env w0).efficiencyShown = none)) := by
  obtain ⟨a, b, rd, -, -, hrd, -, -, -, hcond, -⟩ :=
    handler_core cfg env w0 l hnn hdur hllm htext
  exact ⟨rd, hrd, fun ht => ⟨fun hne => (hcond ht).2 hne, fun hz => (hcond ht).1 hz⟩⟩

/-- Witness for C5 (amended) at a run with a nonzero total. -/
theorem c5_efficiency_guard_amended_witness :
    (⟨0, ⟨[], [], [], []⟩, 0, .ok 1, 0, ⟨[], [], [], []⟩, 0, "hi", 0, 0, 0, 0, 0⟩ : ChatEnv).Nonneg ∧
    (0 : ℚ) ≤ 1 ∧
    (∃ rd, (user_input_handler ⟨true, DelayType.simple_sleep, 1, true, false⟩ ⟨0, ⟨[], [], [], []⟩, 0, .ok 1, 0, ⟨[], [], [], []⟩, 0, "hi", 0, 0, 0, 0, 0⟩ ⟨0, [], 0, []⟩).lastResponseData = some rd ∧
      ((true && (true || false)) = true →
        (rd.response_time_ms ≠ 0 →
          (user_input_handler ⟨true, DelayType.simple_sleep, 1, true, false⟩ ⟨0, ⟨[], [], [], []⟩, 0, .ok 1, 0, ⟨[], [], [], []⟩, 0, "hi", 0, 0, 0, 0, 0⟩ ⟨0, [], 0, []⟩).efficiencyShown =
            some ((rd.llm_only_time_ms : ℚ) / (rd.response_time_ms : ℚ) * 100) ∧
          (user_input_handler ⟨true, DelayType.simple_sleep, 1, true, false⟩ ⟨0, ⟨[], [], [], []⟩, 0, .ok 1, 0, ⟨[], [], [], []⟩, 0, "hi", 0, 0, 0, 0, 0⟩ ⟨0, [], 0, []⟩).errorShown = none) ∧
        (rd.response_time_ms = 0 →
          (user_input_handler ⟨true, DelayType.simple_sleep, 1, true, false⟩ ⟨0, ⟨[], [], [], []⟩, 0, .ok 1, 0, ⟨[], [], [], []⟩, 0, "hi", 0, 0, 0, 0, 0⟩ ⟨0, [], 0, []⟩).errorShown = some ChatErr.zeroDivision ∧
          (user_input_handler ⟨true, DelayType.simple_sleep, 1, true, false⟩ ⟨0, ⟨[], [], [], []⟩, 0, .ok 1, 0, ⟨[], [], [], []⟩, 0, "hi", 0, 0, 0, 0, 0⟩ ⟨0, [], 0, []⟩).efficiencyShown = none))) :=
  ⟨by decide, by norm_num,
   c5_efficiency_guard_amended ⟨true, DelayType.simple_sleep, 1, true, false⟩
     ⟨0, ⟨[], [], [], []⟩, 0, .ok 1, 0, ⟨[], [], [], []⟩, 0, "hi", 0, 0, 0, 0, 0⟩
     ⟨0, [], 0, []⟩ 1 (by decide) (by norm_num) rfl (by decide)⟩

/-- C6 counterexample: with both delay flags off, a successful turn with a
positive total (1000 ms) stores its record but reports no efficiency ratio
at all — in particular no ratio equal to 1.0 — because the delay-info
branch requires a recorded delay stage. -/
theorem c6_efficiency_ratio_counterexample :
    (user_input_handler ⟨true, DelayType.simple_sleep, 1, false, false⟩ ⟨0, ⟨[], [], [], []⟩, 0, .ok 1, 0, ⟨[], [], [], []⟩, 0, "hi", 0, 0, 0, 0, 0⟩ ⟨0, [], 0, []⟩).efficiencyShown = none ∧
    (user_input_handler ⟨true, DelayType.simple_sleep, 1, false, false⟩ ⟨0, ⟨[], [], [], []⟩, 0, .ok 1, 0, ⟨[], [], [], []⟩, 0, "hi", 0, 0, 0, 0, 0⟩ ⟨0, [], 0, []⟩).lastResponseData =
      some ⟨1000, 1000, 0, none, none, 0, 0, 0, 0, 0⟩ := by
  norm_num [user_input_handler, preBlock, postBlock, apply_delay, runDelayFunc,
    simple_sleep_delay, outWorld, msOf, pyInt]
  rw [if_neg (show ¬(("hi" : String) = "") from by decide)]
  refine ⟨rfl, rfl⟩

/-- C6 (amended): whenever the code computes and shows an efficiency
percentage it lies in `[0, 100]`; when both delay flags are false no
efficiency ratio is reported at all. -/
theorem c6_efficiency_ratio_amended (cfg : DelayConfig) (env : ChatEnv) (w0 : World)
    (l q : ℚ) (hnn : env.Nonneg) (hdur : 0 ≤ cfg.delay_duration)
    (hllm : env.llm = .ok l) (htext : env.assistantText ≠ "") :
    ((user_input_handler cfg env w0).efficiencyShown = some q → 0 ≤ q ∧ q ≤ 100) ∧
    (cfg.delay_before_llm = false → cfg.delay_after_llm = false →
      (user_input_handler cfg env w0).efficiencyShown = none) := by
  obtain ⟨a, b, rd, ha0, hb0, hrd, hresp, hllmms, hdel, hcondT, hcondF⟩ :=
    handler_core cfg env w0 l hnn hdur hllm htext
  have hl0 : 0 ≤ l := by
    have h := hnn.2.2.2.2.2.2
    rw [hllm] at h
    exact h
  obtain ⟨hov1, hov2, hov3, hov4, -, -, -⟩ := hnn
  constructor
  · intro hq
    by_cases hc : (cfg.delay_enabled && (cfg.delay_before_llm || cfg.delay_after_llm)) = true
    · by_cases hz : rd.response_time_ms = 0
      · rw [((hcondT hc).1 hz).2] at hq
        cases hq
      · rw [((hcondT hc).2 hz).1] at hq
        simp only [Option.some.injEq] at hq
        have hlm0 : 0 ≤ rd.llm_only_time_ms := by
          rw [hllmms]
          exact msOf_nonneg hl0
        have hle : rd.llm_only_time_ms ≤ rd.response_time_ms := by
          rw [hllmms, hresp]
          exact msOf_mono hl0 (by linarith)
        have hr0 : 0 ≤ rd.response_time_ms := by
          rw [hresp]
          exact msOf_nonneg (by linarith)
        have hrpos : 0 < rd.response_time_ms := lt_of_le_of_ne hr0 (Ne.symm hz)
        have hrposq : (0 : ℚ) < (rd.response_time_ms : ℚ) := by exact_mod_cast hrpos
        have hlm0q : (0 : ℚ) ≤ (rd.llm_only_time_ms : ℚ) := by exact_mod_cast hlm0
        constructor
        · rw [← hq]
          positivity
        · rw [← hq]
          have hdiv : (rd.llm_only_time_ms : ℚ) / (rd.response_time_ms : ℚ) ≤ 1 := by
            rw [div_le_one hrposq]
            exact_mod_cast hle
          nlinarith
    · have hcf : (cfg.delay_enabled && (cfg.delay_before_llm || cfg.delay_after_llm)) = false := by
        revert hc
        cases cfg.delay_enabled && (cfg.delay_before_llm || cfg.delay_after_llm) <;> simp
      rw [(hcondF hcf).1] at hq
      cases hq
  · intro hbf haf
    have hcf : (cfg.delay_enabled && (cfg.delay_before_llm || cfg.delay_after_llm)) = false := by
      rw [hbf, haf]
      simp
    exact (hcondF hcf).1

/-- Witness for C6 (amended) at a run with the pre-delay enabled. -/
theorem c6_efficiency_ratio_amended_witness :
    (⟨0, ⟨[], [], [], []⟩, 0, .ok 1, 0, ⟨[], [], [], []⟩, 0, "hi", 0, 0, 0, 0, 0⟩ : ChatEnv).Nonneg ∧
    (0 : ℚ) ≤ 1 ∧
    (((user_input_handler ⟨true, DelayType.simple_sleep, 1, true, false⟩ ⟨0, ⟨[], [], [], []⟩, 0, .ok 1, 0, ⟨[], [], [], []⟩, 0, "hi", 0, 0, 0, 0, 0⟩ ⟨0, [], 0, []⟩).efficiencyShown = some ((1 : ℚ) / 2) → 0 ≤ (1 : ℚ) / 2 ∧ (1 : ℚ) / 2 ≤ 100) ∧
     ((true : Bool) = false → (false : Bool) = false →
      (user_input_handler ⟨true, DelayType.simple_sleep, 1, true, false⟩ ⟨0, ⟨[], [], [], []⟩, 0, .ok 1, 0, ⟨[], [], [], []⟩, 0, "hi", 0, 0, 0, 0, 0⟩ ⟨0, [], 0, []⟩).efficiencyShown = none)) :=
  ⟨by decide, by norm_num,
   c6_efficiency_ratio_amended ⟨true, DelayType.simple_sleep, 1, true, false⟩
     ⟨0, ⟨[], [], [], []⟩, 0, .ok 1, 0, ⟨[], [], [], []⟩, 0, "hi", 0, 0, 0, 0, 0⟩
     ⟨0, [], 0, []⟩ 1 ((1 : ℚ) / 2) (by decide) (by norm_num) rfl (by decide)⟩

/-- C3 counterexample: in the direct variant, `run_direct_bedrock_workflow`
with one second of pre-call setup and a two-second call reports
`llm_time_ms = 3000`, while the true after-call-minus-before-call window is
2000 ms — the reported figure is not the call window. -/
theorem c3_call_only_counterexample :
    ((run_direct_bedrock_workflow ⟨1, .ok 2, 0, "hi"⟩ 0).info.map WfInfo.llm_time_ms) = some 3000 ∧
    msOf ((run_direct_bedrock_workflow ⟨1, .ok 2, 0, "hi"⟩ 0).callEnd -
      (run_direct_bedrock_workflow ⟨1, .ok 2, 0, "hi"⟩ 0).callStart) = 2000 ∧
    (3000 : ℤ) ≠ 2000 := by
  norm_num [run_direct_bedrock_workflow, msOf, pyInt]

/-- C3 (amended): in the delayed variant the stored `llm_only_time_ms` is
exactly the truncated after-call-minus-before-call window, independent of
every delay stage; in the direct variant `llm_time_ms` is instead the
truncated whole-workflow span (pre-call setup plus call plus post-call
processing), equal to `total_time_ms`, while the true call window is the
call duration alone. -/
theorem c3_call_only_amended (cfg : DelayConfig) (cenv : ChatEnv) (w0 : World) (l : ℚ)
    (wenv : WfEnv) (t0 d : ℚ)
    (hllm : cenv.llm = .ok l) (htext : cenv.assistantText ≠ "") (hwllm : wenv.llm = .ok d) :
    (∀ rd, (user_input_handler cfg cenv w0).lastResponseData = some rd →
        rd.llm_only_time_ms = msOf l) ∧
    (∀ i, (run_direct_bedrock_workflow wenv t0).info = some i →
        i.llm_time_ms = msOf (wenv.ovPre + d + wenv.ovPost) ∧
        i.llm_time_ms = i.total_time_ms) ∧
    (run_direct_bedrock_workflow wenv t0).callEnd -
      (run_direct_bedrock_workflow wenv t0).callStart = d := by
  refine ⟨?_, ?_, ?_⟩
  · intro rd hrd
    unfold user_input_handler at hrd
    rw [hllm] at hrd
    dsimp only at hrd
    rw [if_neg htext] at hrd
    split at hrd
    · split at hrd
      · simp only [Option.some.injEq] at hrd
        subst hrd
        dsimp only
        congr 1
        ring
      · simp only [Option.some.injEq] at hrd
        subst hrd
        dsimp only
        congr 1
        ring
    · simp only [Option.some.injEq] at hrd
      subst hrd
      dsimp only
      congr 1
      ring
  · intro i hi
    unfold run_direct_bedrock_workflow at hi
    rw [hwllm] at hi
    dsimp only at hi
    simp only [Option.some.injEq] at hi
    subst hi
    refine ⟨?_, rfl⟩
    dsimp only
    congr 1
    ring
  · unfold run_direct_bedrock_workflow
    rw [hwllm]
    dsimp only
    ring

/-- Witness for C3 (amended) at concrete runs of both variants. -/
theorem c3_call_only_amended_witness :
    (⟨0, ⟨[], [], [], []⟩, 0, .ok 1, 0, ⟨[], [], [], []⟩, 0, "hi", 0, 0, 0, 0, 0⟩ : ChatEnv).llm = .ok 1 ∧
    (⟨1, .ok 2, 0, "hi"⟩ : WfEnv).llm = .ok 2 ∧
    ((∀ rd, (user_input_handler ⟨true, DelayType.simple_sleep, 1, true, true⟩ ⟨0, ⟨[], [], [], []⟩, 0, .ok 1, 0, ⟨[], [], [], []⟩, 0, "hi", 0, 0, 0, 0, 0⟩ ⟨0, [], 0, []⟩).lastResponseData = some rd →
        rd.llm_only_time_ms = msOf 1) ∧
     (∀ i, (run_direct_bedrock_workflow ⟨1, .ok 2, 0, "hi"⟩ 0).info = some i →
        i.llm_time_ms = msOf ((⟨1, .ok 2, 0, "hi"⟩ : WfEnv).ovPre + 2 + (⟨1, .ok 2, 0, "hi"⟩ : WfEnv).ovPost) ∧
        i.llm_time_ms = i.total_time_ms) ∧
     (run_direct_bedrock_workflow ⟨1, .ok 2, 0, "hi"⟩ 0).callEnd -
       (run_direct_bedrock_workflow ⟨1, .ok 2, 0, "hi"⟩ 0).callStart = 2) :=
  ⟨rfl, rfl,
   c3_call_only_amended ⟨true, DelayType.simple_sleep, 1, true, true⟩
     ⟨0, ⟨[], [], [], []⟩, 0, .ok 1, 0, ⟨[], [], [], []⟩, 0, "hi", 0, 0, 0, 0, 0⟩
     ⟨0, [], 0, []⟩ 1 ⟨1, .ok 2, 0, "hi"⟩ 0 2 rfl (by decide) rfl⟩
